import Mathlib

/-!
Verification development for the `mrecordlog` multiplexed record log.

The byte-level record codec is embedded from `src/record.rs`
(`MultiPlexedRecord`, `MultiRecord` and their serialize / deserialize
functions), and the log engine from `src/multi_record_log.rs`
(`MultiRecordLog`: create_queue, delete_queue, append_record, truncate and
the recovery replay of `open`).

Bytes are modelled as natural numbers; a `u8` cast is an explicit `% 256`,
a `u16` cast `% 2 ^ 16`, and little-endian integer fields are encoded and
decoded byte by byte exactly as `to_le_bytes` / `from_le_bytes` do.
Rust slice expressions that can panic are modelled by functions returning
a distinguished panic outcome, so that panic-freedom is a provable
statement rather than an assumption.

The in-memory index `MemQueues` (file `src/mem.rs`) and the error enums
(file `src/error.rs`) are not part of the provided sources; they are
modelled from the specification (sections 4.2 and 7) and marked as such.
-/

/-- Decidable equality for `Except`, needed to evaluate statements about
fallible operations on concrete inputs. -/
instance {ε α : Type} [DecidableEq ε] [DecidableEq α] : DecidableEq (Except ε α) := fun a b =>
  match a, b with
  | .error e1, .error e2 =>
    if h : e1 = e2 then isTrue (by rw [h]) else isFalse (by intro hc; cases hc; exact h rfl)
  | .ok a1, .ok a2 =>
    if h : a1 = a2 then isTrue (by rw [h]) else isFalse (by intro hc; cases hc; exact h rfl)
  | .error _, .ok _ => isFalse (by intro hc; cases hc)
  | .ok _, .error _ => isFalse (by intro hc; cases hc)

/-- Little-endian decoding of a byte list, as `u64::from_le_bytes` /
`u32::from_le_bytes` / `u16::from_le_bytes` do; each entry is reduced
`% 256` because the Rust buffers hold `u8` values. -/
def fromLeBytes : List Nat → Nat
  | [] => 0
  | b :: bs => b % 256 + 256 * fromLeBytes bs

/-- Little-endian encoding of `n` on `w` bytes, as `to_le_bytes` does. -/
def toLeBytes : Nat → Nat → List Nat
  | 0, _ => []
  | w + 1, n => n % 256 :: toLeBytes w (n / 256)

/-- UTF-8 validity of a byte sequence, the check performed by
`std::str::from_utf8` in `MultiPlexedRecord::deserialize`.  Queue names are
modelled as their byte sequences (equality of `&str` values is equality of
the underlying bytes). -/
def isUtf8 : List Nat → Bool
  | [] => true
  | b :: rest =>
    if b < 0x80 then isUtf8 rest
    else if 0xC2 ≤ b ∧ b ≤ 0xDF then
      match rest with
      | c1 :: r => (0x80 ≤ c1 && c1 ≤ 0xBF) && isUtf8 r
      | [] => false
    else if 0xE0 ≤ b ∧ b ≤ 0xEF then
      match rest with
      | c1 :: c2 :: r =>
        let lo1 := if b = 0xE0 then 0xA0 else 0x80
        let hi1 := if b = 0xED then 0x9F else 0xBF
        (lo1 ≤ c1 && c1 ≤ hi1) && (0x80 ≤ c2 && c2 ≤ 0xBF) && isUtf8 r
      | _ => false
    else if 0xF0 ≤ b ∧ b ≤ 0xF4 then
      match rest with
      | c1 :: c2 :: c3 :: r =>
        let lo1 := if b = 0xF0 then 0x90 else 0x80
        let hi1 := if b = 0xF4 then 0x8F else 0xBF
        (lo1 ≤ c1 && c1 ≤ hi1) && (0x80 ≤ c2 && c2 ≤ 0xBF) &&
          (0x80 ≤ c3 && c3 ≤ 0xBF) && isUtf8 r
      | _ => false
    else false

/-- The `MultiRecord` struct of `src/record.rs`: a borrowed byte buffer of
concatenated `<u64 position><u32 len><len bytes>` items together with the
iteration offset.  The derived Rust `PartialEq` compares both fields, so
`byte_offset` is part of the value. -/
structure MultiRecord where
  buffer : List Nat
  byte_offset : Nat
deriving DecidableEq

/-- Result of one `Iterator::next` call on a `MultiRecord`
(`src/record.rs`, `impl Iterator for MultiRecord`).  `corrupt k` records
that `next` returned `Some(Err(MultiRecordCorruption))` after setting
`byte_offset` to `k` (the length of the *remaining* slice, exactly as the
source does); `item p pl k` returns the parsed item and the advanced
offset; `panic` marks an out-of-bounds slice `&self.buffer[self.byte_offset..]`. -/
inductive NextResult where
  | panic
  | done
  | corrupt (newOffset : Nat)
  | item (position : Nat) (payload : List Nat) (newOffset : Nat)
deriving DecidableEq

/-- One step of the `MultiRecord` iterator, from `src/record.rs` lines
189-215.  The checks and the offset updates mirror the source line by
line. -/
def MultiRecord.next (buffer : List Nat) (off : Nat) : NextResult :=
  if off = buffer.length then .done
  else if buffer.length < off then .panic
  else if (buffer.drop off).length < 12 then .corrupt (buffer.drop off).length
  else if ((buffer.drop off).drop 12).length < fromLeBytes (((buffer.drop off).drop 8).take 4)
  then .corrupt ((buffer.drop off).drop 12).length
  else
    .item (fromLeBytes ((buffer.drop off).take 8))
      (((buffer.drop off).drop 12).take (fromLeBytes (((buffer.drop off).drop 8).take 4)))
      (off + 12 + fromLeBytes (((buffer.drop off).drop 8).take 4))

/-- Result of iterating a `MultiRecord` to the end, collecting the parsed
items.  `fuelOut` marks exhaustion of the structural fuel (proved
unreachable below), `corrupt` the first `Err` item, mirroring the
validation loop of `MultiRecord::new`. -/
inductive MParseResult where
  | panic
  | fuelOut
  | corrupt
  | ok (items : List (Nat × List Nat))
deriving DecidableEq

/-- Full iteration of the `MultiRecord` items starting at offset `off`,
with explicit fuel. -/
def multiParseFuel (buffer : List Nat) : Nat → Nat → MParseResult
  | 0, _ => .fuelOut
  | fuel + 1, off =>
    match MultiRecord.next buffer off with
    | .panic => .panic
    | .done => .ok []
    | .corrupt _ => .corrupt
    | .item p pl off' =>
      match multiParseFuel buffer fuel off' with
      | .ok items => .ok ((p, pl) :: items)
      | r => r

/-- Full iteration of the `MultiRecord` items from offset 0, with enough
fuel for any buffer. -/
def multiParse (buffer : List Nat) : MParseResult :=
  multiParseFuel buffer (buffer.length + 1) 0

/-- Result of `MultiRecord::new`. -/
inductive NewResult where
  | panic
  | corrupted
  | ok (mr : MultiRecord)
deriving DecidableEq

/-- `MultiRecord::new` (`src/record.rs` lines 134-145): iterate over the
whole buffer, fail on the first corrupt item, then reset the position to
zero. -/
def MultiRecord.new (buffer : List Nat) : NewResult :=
  match multiParse buffer with
  | .ok _ => .ok ⟨buffer, 0⟩
  | .corrupt => .corrupted
  | _ => .panic

/-- One serialized item of the multi-payload blob:
`<u64 position><u32 len><len bytes>` (the body of the loop of
`MultiRecord::serialize_with_pos`). -/
def encodeItem (it : Nat × List Nat) : List Nat :=
  toLeBytes 8 it.1 ++ toLeBytes 4 it.2.length ++ it.2

/-- `MultiRecord::serialize_with_pos` (`src/record.rs` lines 162-179):
concatenation of the encoded `(position, payload)` pairs.  The source
asserts `payload.remaining() <= u32::MAX`; that assertion becomes a
hypothesis of the theorems below. -/
def MultiRecord.serialize_with_pos : List (Nat × List Nat) → List Nat
  | [] => []
  | it :: rest => encodeItem it ++ MultiRecord.serialize_with_pos rest

/-- `(position..).zip(record_payloads)`: pair the payloads with the
consecutive positions `position, position + 1, ...`. -/
def zipFrom : Nat → List (List Nat) → List (Nat × List Nat)
  | _, [] => []
  | p, x :: xs => (p, x) :: zipFrom (p + 1) xs

/-- `MultiRecord::serialize` (`src/record.rs` lines 154-160): serialize
the payloads with positions assigned consecutively from `position`. -/
def MultiRecord.serialize (record_payloads : List (List Nat)) (position : Nat) : List Nat :=
  MultiRecord.serialize_with_pos (zipFrom position record_payloads)

/-- The `MultiPlexedRecord` enum of `src/record.rs`.  Queue names are byte
sequences of a valid UTF-8 string; `records` keeps the `MultiRecord`
value, `byte_offset` included, because the derived `PartialEq` compares
it. -/
inductive MultiPlexedRecord where
  | AppendRecords (queue : List Nat) (position : Nat) (records : MultiRecord)
  | Truncate (queue : List Nat) (position : Nat)
  | RecordPosition (queue : List Nat) (position : Nat)
  | DeleteQueue (queue : List Nat) (position : Nat)
deriving DecidableEq

/-- The `RecordType` enum of `src/record.rs`. -/
inductive RecordType where
  | Truncate
  | Touch
  | DeleteQueue
  | AppendRecords
deriving DecidableEq

/-- The `#[repr(u8)]` discriminant values of `RecordType`. -/
def RecordType.toNat : RecordType → Nat
  | .Truncate => 1
  | .Touch => 2
  | .DeleteQueue => 3
  | .AppendRecords => 4

/-- `RecordType::try_from` (`src/record.rs` lines 41-49). -/
def RecordType.try_from (code : Nat) : Option RecordType :=
  match code with
  | 1 => some .Truncate
  | 2 => some .Touch
  | 3 => some .DeleteQueue
  | 4 => some .AppendRecords
  | _ => none

/-- The free function `serialize` of `src/record.rs` lines 52-65:
`tag ‖ u64 position ‖ u16 queue_len ‖ queue ‖ payload`, all little
endian.  The source asserts `queue.len() <= u16::MAX`; the `u16` cast is
the explicit `% 2 ^ 16` inside `toLeBytes 2`. -/
def serializeFields (record_type : RecordType) (position : Nat) (queue : List Nat)
    (payload : List Nat) : List Nat :=
  record_type.toNat :: (toLeBytes 8 position ++ toLeBytes 2 queue.length ++ queue ++ payload)

/-- `MultiPlexedRecord::serialize` (`src/record.rs` lines 68-95).  The
source clears the output buffer first, so the function returns the frame
bytes; `AppendRecords` writes `records.buffer` and ignores the iteration
offset. -/
def MultiPlexedRecord.serialize : MultiPlexedRecord → List Nat
  | .AppendRecords queue position records =>
    serializeFields .AppendRecords position queue records.buffer
  | .Truncate queue position => serializeFields .Truncate position queue []
  | .RecordPosition queue position => serializeFields .Touch position queue []
  | .DeleteQueue queue position => serializeFields .DeleteQueue position queue []

/-- Result of `MultiPlexedRecord::deserialize`: `nothing` is Rust's
`None`, `found` is `Some`, and `panic` marks an out-of-bounds slice
access. -/
inductive DeserResult where
  | panic
  | nothing
  | found (r : MultiPlexedRecord)
deriving DecidableEq

/-- The local `position` of `MultiPlexedRecord::deserialize`:
`u64::from_le_bytes(buffer[1..9])`. -/
def headerPosition (buffer : List Nat) : Nat :=
  fromLeBytes ((buffer.drop 1).take 8)

/-- The local `queue_len` of `MultiPlexedRecord::deserialize`:
`u16::from_le_bytes(buffer[9..11])`. -/
def headerQueueLen (buffer : List Nat) : Nat :=
  fromLeBytes ((buffer.drop 9).take 2)

/-- The local `queue` of `MultiPlexedRecord::deserialize`:
`&remaining[..queue_len]` with `remaining = &buffer[11..]`. -/
def headerQueue (buffer : List Nat) : List Nat :=
  (buffer.drop 11).take (headerQueueLen buffer)

/-- The local `payload` of `MultiPlexedRecord::deserialize`:
`&remaining[queue_len..]`. -/
def headerPayload (buffer : List Nat) : List Nat :=
  (buffer.drop 11).drop (headerQueueLen buffer)

/-- The tail of `MultiPlexedRecord::deserialize` after the record type has
been decoded: check that the queue bytes are present and valid UTF-8, then
build the variant (`src/record.rs` lines 104-119). -/
def MultiPlexedRecord.deserializeTagged (buffer : List Nat) (enum_tag : RecordType) :
    DeserResult :=
  if (buffer.drop 11).length < headerQueueLen buffer then .nothing
  else if isUtf8 (headerQueue buffer) then
    match enum_tag with
    | .AppendRecords =>
      match MultiRecord.new (headerPayload buffer) with
      | .ok mr => .found (.AppendRecords (headerQueue buffer) (headerPosition buffer) mr)
      | .corrupted => .nothing
      | .panic => .panic
    | .Truncate => .found (.Truncate (headerQueue buffer) (headerPosition buffer))
    | .Touch => .found (.RecordPosition (headerQueue buffer) (headerPosition buffer))
    | .DeleteQueue => .found (.DeleteQueue (headerQueue buffer) (headerPosition buffer))
  else .nothing

/-- `MultiPlexedRecord::deserialize` (`src/record.rs` lines 97-120).  Every
slice access of the source is preceded by the same length check here; the
source's local bindings `position`, `queue_len`, `queue` and `payload` are
the `header…` helpers above; the nested blob of `AppendRecords` goes
through `MultiRecord::new`. -/
def MultiPlexedRecord.deserialize (buffer : List Nat) : DeserResult :=
  if buffer.length < 11 then .nothing
  else
    match RecordType.try_from (buffer.headD 0) with
    | none => .nothing
    | some enum_tag => MultiPlexedRecord.deserializeTagged buffer enum_tag

/-! ## The log engine

`src/multi_record_log.rs` is embedded below.  The engine writes decoded
records through its `RecordWriter`; the rolling writer / reader pair (an
external collaborator per the specification) is modelled as the durable
stream of `(file_number, record)` frames in write order, together with the
`current_file_number` the next frame will land in.  `flush` and `gc` have
no effect on this view: flushing is a durability barrier (tracked by the
event traces below), and `gc` delegates the deletion of obsolete rolling
files to the external writer.

`src/multi_record_log.rs` uses the single-payload variants `AppendRecord`
and `Touch` of `MultiPlexedRecord` (the specification, section 9, notes
this divergence from the batched variants of `src/record.rs` and treats
the single-record form as the one-item specialization), so the engine gets
its own decoded-record type with those variants, queue names being the
(UTF-8) strings the engine passes around. -/

/-- A file number of the rolling file set. -/
abbrev FileNumber := Nat

/-- Decoded records as `src/multi_record_log.rs` pattern-matches them:
`AppendRecord` (single payload), `Truncate`, `Touch`, `DeleteQueue`. -/
inductive EngineRecord where
  | AppendRecord (queue : String) (position : Nat) (payload : List Nat)
  | Truncate (queue : String) (position : Nat)
  | Touch (queue : String) (position : Nat)
  | DeleteQueue (queue : String) (position : Nat)
deriving DecidableEq

/-- Modelled from the spec: the error kinds of section 7 (`src/error.rs`
is not among the provided sources).  `Io` errors do not arise in this
model, which has no failing storage. -/
inductive CreateQueueError where
  | AlreadyExists
deriving DecidableEq

/-- Modelled from the spec: error of `delete_queue` / `next_position` on
an absent queue (section 7, `src/error.rs` missing). -/
inductive DeleteQueueError where
  | MissingQueue
deriving DecidableEq

/-- Modelled from the spec: errors of `append_record` (section 7,
`src/error.rs` missing).  `Corruption` covers the "corruption/logic
error" of the in-memory `append_record` contract. -/
inductive AppendError where
  | MissingQueue
  | Past
  | Future
  | Corruption
deriving DecidableEq

/-- Modelled from the spec: errors of `truncate` (section 7,
`src/error.rs` missing). -/
inductive TruncateError where
  | MissingQueue
  | Future
deriving DecidableEq

/-- Modelled from the spec: errors of the in-memory `append_record` and
`touch` operations (section 4.2, `src/mem.rs` missing). -/
inductive MemError where
  | MissingQueue
  | Corruption
deriving DecidableEq

/-- `open` fails with `Corruption` when replay meets a semantically
impossible record (`ReadRecordError`, `src/recordlog` not among the
provided sources; the `Io` case does not arise in this model). -/
inductive ReadRecordError where
  | Corruption
deriving DecidableEq

/-- Modelled from the spec: one in-memory queue (section 3, "Queue",
`src/mem.rs` missing).  `records` maps each live position to the file
number hosting its frame and the payload bytes, in position order;
`first_retained_position` is derived (first entry, or `next_position`
when empty). -/
structure MemQueue where
  next_position : Nat
  records : List (Nat × FileNumber × List Nat)
  first_file_number : FileNumber
deriving DecidableEq

/-- Modelled from the spec: the in-memory per-queue index `MemQueues`
(section 4.2, `src/mem.rs` missing), as an association list in insertion
order. -/
abbrev MemQueues := List (String × MemQueue)

/-- Look up a queue by name (first binding). -/
def MemQueues.find_queue (m : MemQueues) (queue : String) : Option MemQueue :=
  match m with
  | [] => none
  | (q, mq) :: rest => if q = queue then some mq else MemQueues.find_queue rest queue

/-- Modelled from the spec: `contains_queue` (section 4.2). -/
def MemQueues.contains_queue (m : MemQueues) (queue : String) : Bool :=
  (m.find_queue queue).isSome

/-- Replace the first binding of `queue`. -/
def MemQueues.update_queue (m : MemQueues) (queue : String) (mq : MemQueue) : MemQueues :=
  match m with
  | [] => []
  | (q, old) :: rest =>
    if q = queue then (q, mq) :: rest
    else (q, old) :: MemQueues.update_queue rest queue mq

/-- Remove the first binding of `queue`. -/
def MemQueues.remove_queue (m : MemQueues) (queue : String) : MemQueues :=
  match m with
  | [] => []
  | (q, old) :: rest =>
    if q = queue then rest else (q, old) :: MemQueues.remove_queue rest queue

/-- Modelled from the spec: `create_queue` (section 4.2) — fails with
`AlreadyExists` if present, else inserts an empty queue with
`next_position = 0` and the caller-supplied current file. -/
def MemQueues.create_queue (m : MemQueues) (queue : String) (file_number : FileNumber) :
    Except CreateQueueError MemQueues :=
  if m.contains_queue queue then .error .AlreadyExists
  else .ok (m ++ [(queue, ⟨0, [], file_number⟩)])

/-- Modelled from the spec: `next_position` (section 4.2) — `none` models
the `MissingQueue` failure. -/
def MemQueues.next_position (m : MemQueues) (queue : String) : Option Nat :=
  (m.find_queue queue).map MemQueue.next_position

/-- Modelled from the spec: `delete_queue` (section 4.2) — fails with
`MissingQueue` if absent, else removes all state. -/
def MemQueues.delete_queue (m : MemQueues) (queue : String) :
    Except DeleteQueueError MemQueues :=
  if m.contains_queue queue then .ok (m.remove_queue queue)
  else .error .MissingQueue

/-- Modelled from the spec: the in-memory `append_record` (section 4.2) —
fails if the queue is absent or `position ≠ next_position`; on success
inserts `position → (file_number, payload)`, sets
`next_position = position + 1` and updates `first_file_number` if this is
the first entry after emptiness. -/
def MemQueues.append_record (m : MemQueues) (queue : String) (file_number : FileNumber)
    (position : Nat) (payload : List Nat) : Except MemError MemQueues :=
  match m.find_queue queue with
  | none => .error .MissingQueue
  | some mq =>
    if position = mq.next_position then
      .ok (m.update_queue queue
        ⟨position + 1, mq.records ++ [(position, file_number, payload)],
          if mq.records.isEmpty then file_number else mq.first_file_number⟩)
    else .error .Corruption

/-- Modelled from the spec: `touch` (section 4.2) — creates the queue at
`position` if absent; if present and empty, advances `next_position` to
`position` and updates `first_file_number`; if present and non-empty,
`position` must equal `next_position` (otherwise corruption). -/
def MemQueues.touch (m : MemQueues) (queue : String) (position : Nat)
    (file_number : FileNumber) : Except MemError MemQueues :=
  match m.find_queue queue with
  | none => .ok (m ++ [(queue, ⟨position, [], file_number⟩)])
  | some mq =>
    if mq.records.isEmpty then .ok (m.update_queue queue ⟨position, [], file_number⟩)
    else if position = mq.next_position then .ok m
    else .error .Corruption

/-- Modelled from the spec: the in-memory `truncate` (section 4.2) —
removes every live entry with position ≤ `position`; a truncate of an
absent queue is a no-op at this layer. -/
def MemQueues.truncate (m : MemQueues) (queue : String) (position : Nat) : MemQueues :=
  match m.find_queue queue with
  | none => m
  | some mq =>
    m.update_queue queue
      ⟨mq.next_position, mq.records.filter (fun r => position < r.1), mq.first_file_number⟩

/-- The engine `MultiRecordLog` of `src/multi_record_log.rs`.
`record_log` is the durable stream of decoded frames tagged with the file
number they were written to; `cur_file` is the rolling writer's
`current_file()`. -/
structure MultiRecordLog where
  record_log : List (FileNumber × EngineRecord)
  in_mem_queues : MemQueues
  cur_file : FileNumber
deriving DecidableEq

/-- `record_log_writer.write_record(record)`: append one frame at the
current file. -/
def MultiRecordLog.write_record (l : MultiRecordLog) (r : EngineRecord) : MultiRecordLog :=
  { l with record_log := l.record_log ++ [(l.cur_file, r)] }

/-- `MultiRecordLog::create_queue` (`src/multi_record_log.rs` lines
68-74): write the `Touch{queue, position: 0}` frame, flush, then
`mem.create_queue` — the frame is written before the in-memory existence
check. -/
def MultiRecordLog.create_queue (l : MultiRecordLog) (queue : String) :
    Except CreateQueueError Unit × MultiRecordLog :=
  let l1 := l.write_record (.Touch queue 0)
  match l1.in_mem_queues.create_queue queue l1.cur_file with
  | .ok m => (.ok (), { l1 with in_mem_queues := m })
  | .error e => (.error e, l1)

/-- `MultiRecordLog::delete_queue` (`src/multi_record_log.rs` lines
76-83): capture `next_position`, write the `DeleteQueue` frame, flush,
then remove the queue from memory. -/
def MultiRecordLog.delete_queue (l : MultiRecordLog) (queue : String) :
    Except DeleteQueueError Unit × MultiRecordLog :=
  match l.in_mem_queues.next_position queue with
  | none => (.error .MissingQueue, l)
  | some position =>
    let l1 := l.write_record (.DeleteQueue queue position)
    match l1.in_mem_queues.delete_queue queue with
    | .ok m => (.ok (), { l1 with in_mem_queues := m })
    | .error e => (.error e, l1)

/-- `MultiRecordLog::queue_exists`. -/
def MultiRecordLog.queue_exists (l : MultiRecordLog) (queue : String) : Bool :=
  l.in_mem_queues.contains_queue queue

/-- The successful tail of `append_record`: note the current file, write
the `AppendRecord` frame, flush, then apply the append in memory
(`src/multi_record_log.rs` lines 114-125). -/
def MultiRecordLog.append_go (l : MultiRecordLog) (queue : String) (position : Nat)
    (payload : List Nat) : Except AppendError (Option Nat) × MultiRecordLog :=
  let file_number := l.cur_file
  let l1 := l.write_record (.AppendRecord queue position payload)
  match l1.in_mem_queues.append_record queue file_number position payload with
  | .ok m => (.ok (some position), { l1 with in_mem_queues := m })
  | .error .MissingQueue => (.error .MissingQueue, l1)
  | .error .Corruption => (.error .Corruption, l1)

/-- `MultiRecordLog::append_record` (`src/multi_record_log.rs` lines
98-126) with the idempotence checks on the caller-supplied position. -/
def MultiRecordLog.append_record (l : MultiRecordLog) (queue : String)
    (position_opt : Option Nat) (payload : List Nat) :
    Except AppendError (Option Nat) × MultiRecordLog :=
  match l.in_mem_queues.next_position queue with
  | none => (.error .MissingQueue, l)
  | some next_position =>
    match position_opt with
    | some position =>
      if next_position < position then (.error .Future, l)
      else if position + 1 = next_position then (.ok none, l)
      else if position < next_position then (.error .Past, l)
      else l.append_go queue position payload
    | none => l.append_go queue next_position payload

/-- The `Touch` frames emitted by `touch_empty_queues` for the queues that
are currently empty, in index order. -/
def touch_empty_frames (file_number : FileNumber) : MemQueues →
    List (FileNumber × EngineRecord)
  | [] => []
  | (q, mq) :: rest =>
    (if mq.records.isEmpty then [(file_number, EngineRecord.Touch q mq.next_position)]
     else []) ++ touch_empty_frames file_number rest

/-- The in-memory effect of `touch_empty_queues`: each empty queue has its
`first_file_number` pinned to the current file (`queue.touch` at the
queue's own `next_position` leaves `next_position` unchanged). -/
def touch_empty_mem (file_number : FileNumber) : MemQueues → MemQueues
  | [] => []
  | (q, mq) :: rest =>
    (q, if mq.records.isEmpty then { mq with first_file_number := file_number } else mq) ::
      touch_empty_mem file_number rest

/-- `MultiRecordLog::touch_empty_queues` (`src/multi_record_log.rs` lines
128-140): for every empty queue, write a `Touch{queue, next_position}`
frame and touch the queue in memory. -/
def MultiRecordLog.touch_empty_queues (l : MultiRecordLog) : MultiRecordLog :=
  { l with
    record_log := l.record_log ++ touch_empty_frames l.cur_file l.in_mem_queues,
    in_mem_queues := touch_empty_mem l.cur_file l.in_mem_queues }

/-- `MultiRecordLog::truncate` (`src/multi_record_log.rs` lines 145-157):
reject future positions, truncate the in-memory queue first, then write
the `Truncate` frame, touch the empty queues, flush and trigger gc. -/
def MultiRecordLog.truncate (l : MultiRecordLog) (queue : String) (position : Nat) :
    Except TruncateError Unit × MultiRecordLog :=
  match l.in_mem_queues.next_position queue with
  | none => (.error .MissingQueue, l)
  | some next_position =>
    if next_position ≤ position then (.error .Future, l)
    else
      let l1 := { l with in_mem_queues := l.in_mem_queues.truncate queue position }
      let l2 := l1.write_record (.Truncate queue position)
      let l3 := l2.touch_empty_queues
      (.ok (), l3)

/-- Applying one decoded frame to the in-memory index: the body of the
recovery loop of `MultiRecordLog::open` (`src/multi_record_log.rs` lines
21-51); in-memory errors map to `Corruption`, truncate is silent on
absent queues. -/
def MultiRecordLog.apply_frame (m : MemQueues) :
    FileNumber × EngineRecord → Except ReadRecordError MemQueues
  | (file_number, .AppendRecord queue position payload) =>
    match m.append_record queue file_number position payload with
    | .ok m' => .ok m'
    | .error _ => .error .Corruption
  | (_, .Truncate queue position) => .ok (m.truncate queue position)
  | (file_number, .Touch queue position) =>
    match m.touch queue position file_number with
    | .ok m' => .ok m'
    | .error _ => .error .Corruption
  | (_, .DeleteQueue queue _) =>
    match m.delete_queue queue with
    | .ok m' => .ok m'
    | .error _ => .error .Corruption

/-- Folding a list of frames into an already-started replay state. -/
def MultiRecordLog.replayFrom (start : Except ReadRecordError MemQueues)
    (frames : List (FileNumber × EngineRecord)) : Except ReadRecordError MemQueues :=
  frames.foldl
    (fun acc fr =>
      match acc with
      | .ok m => MultiRecordLog.apply_frame m fr
      | e => e)
    start

/-- The recovery replay of `MultiRecordLog::open`: fold every frame of the
log, in order, into a fresh `MemQueues`. -/
def MultiRecordLog.replay (frames : List (FileNumber × EngineRecord)) :
    Except ReadRecordError MemQueues :=
  MultiRecordLog.replayFrom (.ok []) frames

/-- A mutating operation of the engine, plus `roll`, the rolling writer
moving to the next file between operations. -/
inductive Op where
  | create (queue : String)
  | delete (queue : String)
  | append (queue : String) (position_opt : Option Nat) (payload : List Nat)
  | trunc (queue : String) (position : Nat)
  | roll
deriving DecidableEq

/-- Apply one operation to the engine, discarding the result value. -/
def MultiRecordLog.step (l : MultiRecordLog) : Op → MultiRecordLog
  | .create queue => (l.create_queue queue).2
  | .delete queue => (l.delete_queue queue).2
  | .append queue position_opt payload => (l.append_record queue position_opt payload).2
  | .trunc queue position => (l.truncate queue position).2
  | .roll => { l with cur_file := l.cur_file + 1 }

/-- Apply a sequence of operations. -/
def MultiRecordLog.run (l : MultiRecordLog) : List Op → MultiRecordLog
  | [] => l
  | op :: ops => (l.step op).run ops

/-- The freshly opened engine over an empty directory. -/
def MultiRecordLog.empty : MultiRecordLog := ⟨[], [], 0⟩

/-- `True` of a run in which every `create_queue` targets a queue that
does not exist at that point (so no operation writes a frame and then
fails). -/
def MultiRecordLog.goodRun (l : MultiRecordLog) : List Op → Bool
  | [] => true
  | op :: ops =>
    (match op with
     | .create queue => !l.in_mem_queues.contains_queue queue
     | _ => true) && (l.step op).goodRun ops

/-! ## Event traces of the mutating operations

To reason about the order "write frame → flush → mutate memory" each
operation is given, besides its state transformer above, the sequence of
externally visible events it performs, in the order the source performs
them. -/

/-- One step of a mutating operation: a frame write, a flush, an
in-memory index mutation, or a gc request. -/
inductive Event where
  | writeEv (file_number : FileNumber) (r : EngineRecord)
  | flushEv
  | mutateEv
  | gcEv
deriving DecidableEq

/-- Events of `create_queue`: write the `Touch` frame, flush, then mutate
memory only when the queue did not exist. -/
def traceCreate (l : MultiRecordLog) (queue : String) : List Event :=
  [.writeEv l.cur_file (.Touch queue 0), .flushEv] ++
    (match l.in_mem_queues.create_queue queue l.cur_file with
     | .ok _ => [.mutateEv]
     | .error _ => [])

/-- Events of `delete_queue`: nothing on a missing queue (the operation
fails before writing), else write, flush, mutate. -/
def traceDelete (l : MultiRecordLog) (queue : String) : List Event :=
  match l.in_mem_queues.next_position queue with
  | none => []
  | some position =>
    [.writeEv l.cur_file (.DeleteQueue queue position), .flushEv] ++
      (match (l.write_record (.DeleteQueue queue position)).in_mem_queues.delete_queue queue with
       | .ok _ => [.mutateEv]
       | .error _ => [])

/-- Events of the successful tail of `append_record`. -/
def traceAppendGo (l : MultiRecordLog) (queue : String) (position : Nat)
    (payload : List Nat) : List Event :=
  [.writeEv l.cur_file (.AppendRecord queue position payload), .flushEv] ++
    (match l.in_mem_queues.append_record queue l.cur_file position payload with
     | .ok _ => [.mutateEv]
     | .error _ => [])

/-- Events of `append_record`: the missing-queue, `Future`, no-op and
`Past` paths return before any write. -/
def traceAppend (l : MultiRecordLog) (queue : String) (position_opt : Option Nat)
    (payload : List Nat) : List Event :=
  match l.in_mem_queues.next_position queue with
  | none => []
  | some next_position =>
    match position_opt with
    | some position =>
      if next_position < position then []
      else if position + 1 = next_position then []
      else if position < next_position then []
      else traceAppendGo l queue position payload
    | none => traceAppendGo l queue next_position payload

/-- Events of `touch_empty_queues`: for each empty queue, a `Touch` frame
write immediately followed by the in-memory touch. -/
def traceTouchEmpty (file_number : FileNumber) : MemQueues → List Event
  | [] => []
  | (q, mq) :: rest =>
    (if mq.records.isEmpty then
      [Event.writeEv file_number (EngineRecord.Touch q mq.next_position), Event.mutateEv]
     else []) ++ traceTouchEmpty file_number rest

/-- Events of `truncate`: the in-memory truncate happens first, then the
`Truncate` frame write, the touch-empty-queues loop, the flush and the gc
request. -/
def traceTruncate (l : MultiRecordLog) (queue : String) (position : Nat) : List Event :=
  match l.in_mem_queues.next_position queue with
  | none => []
  | some next_position =>
    if next_position ≤ position then []
    else
      [Event.mutateEv, Event.writeEv l.cur_file (.Truncate queue position)] ++
        traceTouchEmpty l.cur_file (l.in_mem_queues.truncate queue position) ++
        [Event.flushEv, Event.gcEv]

/-- Whether, scanning the trace left to right, every `mutateEv` is
preceded by a `flushEv` that is itself preceded by a frame write: the
claimed "write frame → flush → only then mutate memory" discipline.
`sawWrite` records a write seen so far, `covered` a flush with an earlier
write. -/
def mutateCoveredAux : List Event → Bool → Bool → Bool
  | [], _, _ => true
  | .writeEv _ _ :: rest, _, covered => mutateCoveredAux rest true covered
  | .flushEv :: rest, sawWrite, covered => mutateCoveredAux rest sawWrite (covered || sawWrite)
  | .mutateEv :: rest, sawWrite, covered => covered && mutateCoveredAux rest sawWrite covered
  | .gcEv :: rest, sawWrite, covered => mutateCoveredAux rest sawWrite covered

/-- Top-level form of the write → flush → mutate discipline. -/
def mutateCovered (tr : List Event) : Bool :=
  mutateCoveredAux tr false false

/-- Well-formedness of a blob item: the position fits a `u64` and the
payload length a `u32` (the latter is asserted by
`MultiRecord::serialize_with_pos`). -/
def wfItem (it : Nat × List Nat) : Prop :=
  it.1 < 2 ^ 64 ∧ it.2.length < 2 ^ 32

instance (it : Nat × List Nat) : Decidable (wfItem it) := by
  unfold wfItem; infer_instance

/-- The queue-name bytes of a record. -/
def MultiPlexedRecord.queue : MultiPlexedRecord → List Nat
  | .AppendRecords queue _ _ => queue
  | .Truncate queue _ => queue
  | .RecordPosition queue _ => queue
  | .DeleteQueue queue _ => queue

/-- The position field of a record. -/
def MultiPlexedRecord.position : MultiPlexedRecord → Nat
  | .AppendRecords _ position _ => position
  | .Truncate _ position => position
  | .RecordPosition _ position => position
  | .DeleteQueue _ position => position

/-- Well-formedness of a record value, justified by the Rust types and by
the assertion of the `serialize` helper: the position is a `u64`, the
queue name comes from a `&str` (valid UTF-8) and its length fits the
asserted `u16` bound. -/
def wfFrame (r : MultiPlexedRecord) : Prop :=
  r.position < 2 ^ 64 ∧ isUtf8 r.queue = true ∧ r.queue.length ≤ 65535

instance (r : MultiPlexedRecord) : Decidable (wfFrame r) := by
  unfold wfFrame; infer_instance

/-- The records of an `AppendRecords` value are in the state produced by
`MultiRecord::new` over their own buffer: the blob passes validation and
the iteration offset is reset to zero. -/
def validBlob : MultiPlexedRecord → Prop
  | .AppendRecords _ _ records => MultiRecord.new records.buffer = .ok records
  | _ => True

instance (r : MultiPlexedRecord) : Decidable (validBlob r) := by
  unfold validBlob
  cases r <;> infer_instance

/-! ## Codec lemmas -/

theorem length_toLeBytes (w : Nat) : ∀ n, (toLeBytes w n).length = w := by
  induction w with
  | zero => intro n; rfl
  | succ w ih => intro n; simp [toLeBytes, ih]

theorem fromLeBytes_toLeBytes (w : Nat) : ∀ n, fromLeBytes (toLeBytes w n) = n % 256 ^ w := by
  induction w with
  | zero => intro n; simp [toLeBytes, fromLeBytes]; omega
  | succ w ih =>
    intro n
    rw [pow_succ, mul_comm, Nat.mod_mul]
    simp [toLeBytes, fromLeBytes, ih, Nat.mod_mod_of_dvd _ dvd_rfl]

theorem fromLeBytes_toLeBytes_64 {n : Nat} (h : n < 2 ^ 64) :
    fromLeBytes (toLeBytes 8 n) = n := by
  rw [fromLeBytes_toLeBytes]
  exact Nat.mod_eq_of_lt (by norm_num at h ⊢; omega)

theorem fromLeBytes_toLeBytes_32 {n : Nat} (h : n < 2 ^ 32) :
    fromLeBytes (toLeBytes 4 n) = n := by
  rw [fromLeBytes_toLeBytes]
  exact Nat.mod_eq_of_lt (by norm_num at h ⊢; omega)

theorem fromLeBytes_toLeBytes_16 {n : Nat} (h : n < 2 ^ 16) :
    fromLeBytes (toLeBytes 2 n) = n := by
  rw [fromLeBytes_toLeBytes]
  exact Nat.mod_eq_of_lt (by norm_num at h ⊢; omega)

/-- The iterator never panics while its offset is in bounds. -/
theorem MultiRecord.next_no_panic {buffer : List Nat} {off : Nat} (h : off ≤ buffer.length) :
    MultiRecord.next buffer off ≠ .panic := by
  unfold MultiRecord.next
  split
  · simp
  · split
    · omega
    · split
      · simp
      · split <;> simp

/-- A successfully parsed item advances the offset by at least 12 bytes
and keeps it inside the buffer. -/
theorem MultiRecord.next_item_bounds {buffer : List Nat} {off p off' : Nat} {pl : List Nat}
    (h : MultiRecord.next buffer off = .item p pl off') :
    off + 12 ≤ off' ∧ off' ≤ buffer.length := by
  unfold MultiRecord.next at h
  split at h
  · simp at h
  · split at h
    · simp at h
    · split at h
      · simp at h
      · split at h
        · simp at h
        · injection h with h1 h2 h3
          simp only [List.length_drop] at *
          omega

/-- Unfolding equation of `multiParseFuel` at positive fuel. -/
theorem multiParseFuel_succ (buffer : List Nat) (fuel off : Nat) :
    multiParseFuel buffer (fuel + 1) off =
      match MultiRecord.next buffer off with
      | .panic => .panic
      | .done => .ok []
      | .corrupt _ => .corrupt
      | .item p pl off' =>
        match multiParseFuel buffer fuel off' with
        | .ok items => .ok ((p, pl) :: items)
        | r => r := rfl

theorem multiParseFuel_done {buffer : List Nat} {off fuel : Nat}
    (h : MultiRecord.next buffer off = .done) :
    multiParseFuel buffer (fuel + 1) off = .ok [] := by
  rw [multiParseFuel_succ, h]

theorem multiParseFuel_corrupt {buffer : List Nat} {off fuel k : Nat}
    (h : MultiRecord.next buffer off = .corrupt k) :
    multiParseFuel buffer (fuel + 1) off = .corrupt := by
  rw [multiParseFuel_succ, h]

theorem multiParseFuel_panic {buffer : List Nat} {off fuel : Nat}
    (h : MultiRecord.next buffer off = .panic) :
    multiParseFuel buffer (fuel + 1) off = .panic := by
  rw [multiParseFuel_succ, h]

theorem multiParseFuel_item {buffer : List Nat} {off p off' : Nat} {pl : List Nat}
    {fuel : Nat} (h : MultiRecord.next buffer off = .item p pl off') :
    multiParseFuel buffer (fuel + 1) off =
      match multiParseFuel buffer fuel off' with
      | .ok items => .ok ((p, pl) :: items)
      | r => r := by
  rw [multiParseFuel_succ, h]

theorem multiParseFuel_item_ok {buffer : List Nat} {off p off' : Nat} {pl : List Nat}
    {fuel : Nat} {items : List (Nat × List Nat)}
    (h : MultiRecord.next buffer off = .item p pl off')
    (h2 : multiParseFuel buffer fuel off' = .ok items) :
    multiParseFuel buffer (fuel + 1) off = .ok ((p, pl) :: items) := by
  rw [multiParseFuel_item h, h2]

theorem multiParseFuel_item_corrupt {buffer : List Nat} {off p off' : Nat} {pl : List Nat}
    {fuel : Nat} (h : MultiRecord.next buffer off = .item p pl off')
    (h2 : multiParseFuel buffer fuel off' = .corrupt) :
    multiParseFuel buffer (fuel + 1) off = .corrupt := by
  rw [multiParseFuel_item h, h2]

/-- With fuel exceeding the remaining length, the validation loop reaches
a verdict: corruption or the parsed item list. -/
theorem multiParseFuel_result {buffer : List Nat} :
    ∀ fuel off, off ≤ buffer.length → buffer.length - off < fuel →
      multiParseFuel buffer fuel off = .corrupt ∨
        ∃ items, multiParseFuel buffer fuel off = .ok items := by
  intro fuel
  induction fuel with
  | zero => intro off h1 h2; omega
  | succ fuel ih =>
    intro off h1 h2
    rcases hn : MultiRecord.next buffer off with _ | _ | k | ⟨p, pl, off'⟩
    · exact absurd hn (MultiRecord.next_no_panic h1)
    · right; exact ⟨[], multiParseFuel_done hn⟩
    · left; exact multiParseFuel_corrupt hn
    · have hb := MultiRecord.next_item_bounds hn
      rcases ih off' (by omega) (by omega) with hc | ⟨items, hok⟩
      · left; exact multiParseFuel_item_corrupt hn hc
      · right; exact ⟨(p, pl) :: items, multiParseFuel_item_ok hn hok⟩

/-- The default fuel of `multiParse` is always sufficient. -/
theorem multiParse_result (buffer : List Nat) :
    multiParse buffer = .corrupt ∨ ∃ items, multiParse buffer = .ok items :=
  multiParseFuel_result (buffer.length + 1) 0 (Nat.zero_le _) (by omega)

/-- Any two sufficient fuels give the same verdict. -/
theorem multiParseFuel_congr_fuel {buffer : List Nat} :
    ∀ f1 f2 off, off ≤ buffer.length → buffer.length - off < f1 →
      buffer.length - off < f2 →
      multiParseFuel buffer f1 off = multiParseFuel buffer f2 off := by
  intro f1
  induction f1 with
  | zero => intro f2 off h1 h2 h3; omega
  | succ f1 ih =>
    intro f2 off h1 h2 h3
    match f2, h3 with
    | f2 + 1, _ =>
      rcases hn : MultiRecord.next buffer off with _ | _ | k | ⟨p, pl, off'⟩
      · rw [multiParseFuel_panic hn, multiParseFuel_panic hn]
      · rw [multiParseFuel_done hn, multiParseFuel_done hn]
      · rw [multiParseFuel_corrupt hn, multiParseFuel_corrupt hn]
      · have hb := MultiRecord.next_item_bounds hn
        rw [multiParseFuel_item hn, multiParseFuel_item hn,
          ih f2 off' (by omega) (by omega) (by omega)]

/-- Stepping the iterator in `pre ++ tail` from an offset past `pre` is
stepping it in `tail`, with the offset shifted. -/
theorem MultiRecord.next_shift (pre tail : List Nat) (k : Nat) :
    MultiRecord.next (pre ++ tail) (pre.length + k) =
      match MultiRecord.next tail k with
      | .item p pl o => .item p pl (pre.length + o)
      | r => r := by
  unfold MultiRecord.next
  rw [List.drop_append_eq_append_drop, List.drop_of_length_le (by omega),
    List.length_append]
  simp only [Nat.add_sub_cancel_left, List.nil_append]
  by_cases h1 : k = tail.length
  · simp [h1]
  · rw [if_neg (by omega), if_neg h1]
    by_cases h2 : tail.length < k
    · rw [if_pos (by omega), if_pos h2]
    · rw [if_neg (by omega), if_neg h2]
      split
      · rfl
      · split
        · rfl
        · have harith :
              pre.length + k + 12 + fromLeBytes (List.take 4 (List.drop 8 (List.drop k tail))) =
                pre.length + (k + 12 + fromLeBytes (List.take 4 (List.drop 8 (List.drop k tail)))) := by
            omega
          rw [harith]

/-- Parsing `pre ++ tail` from an offset past `pre` is parsing `tail`. -/
theorem multiParseFuel_shift (pre tail : List Nat) :
    ∀ fuel k, multiParseFuel (pre ++ tail) fuel (pre.length + k) =
      multiParseFuel tail fuel k := by
  intro fuel
  induction fuel with
  | zero => intro k; rfl
  | succ fuel ih =>
    intro k
    unfold multiParseFuel
    rw [MultiRecord.next_shift]
    rcases MultiRecord.next tail k with _ | _ | j | ⟨p, pl, o⟩
    · rfl
    · rfl
    · rfl
    · simp only
      rw [ih o]

theorem length_encodeItem (it : Nat × List Nat) : (encodeItem it).length = 12 + it.2.length := by
  simp [encodeItem, length_toLeBytes]
  omega

theorem length_encodeItem_pair (p : Nat) (pl : List Nat) :
    (encodeItem (p, pl)).length = 12 + pl.length :=
  length_encodeItem (p, pl)

/-- Parsing a well-formed encoded item followed by anything yields the
item and continues on the remainder. -/
theorem multiParseFuel_encodeItem_append {p : Nat} {pl : List Nat} (rest : List Nat)
    (fuel : Nat) (hp : p < 2 ^ 64) (hl : pl.length < 2 ^ 32) :
    multiParseFuel (encodeItem (p, pl) ++ rest) (fuel + 1) 0 =
      match multiParseFuel rest fuel 0 with
      | .ok items => .ok ((p, pl) :: items)
      | r => r := by
  have hlen : (encodeItem (p, pl) ++ rest).length = 12 + pl.length + rest.length := by
    rw [List.length_append, length_encodeItem]
  have henc : encodeItem (p, pl) ++ rest =
      (toLeBytes 8 p ++ toLeBytes 4 pl.length) ++ (pl ++ rest) := by
    simp [encodeItem, List.append_assoc]
  have hnext : MultiRecord.next (encodeItem (p, pl) ++ rest) 0 =
      .item p pl (12 + pl.length) := by
    unfold MultiRecord.next
    rw [if_neg (by omega), if_neg (by omega), List.drop_zero]
    rw [if_neg (by omega)]
    have h8 : (encodeItem (p, pl) ++ rest).take 8 = toLeBytes 8 p := by
      rw [henc, List.append_assoc, List.take_append_of_le_length (by simp [length_toLeBytes]),
        List.take_of_length_le (by simp [length_toLeBytes])]
    have hdrop8 : (encodeItem (p, pl) ++ rest).drop 8 = toLeBytes 4 pl.length ++ (pl ++ rest) := by
      rw [henc, List.append_assoc, List.drop_append_of_le_length (by simp [length_toLeBytes]),
        List.drop_of_length_le (by simp [length_toLeBytes])]
      simp
    have h4 : ((encodeItem (p, pl) ++ rest).drop 8).take 4 = toLeBytes 4 pl.length := by
      rw [hdrop8, List.take_append_of_le_length (by simp [length_toLeBytes]),
        List.take_of_length_le (by simp [length_toLeBytes])]
    have hdrop12 : (encodeItem (p, pl) ++ rest).drop 12 = pl ++ rest := by
      rw [henc, List.drop_append_of_le_length (by simp [length_toLeBytes]),
        List.drop_of_length_le (by simp [length_toLeBytes])]
      simp
    rw [h8, h4, hdrop12, fromLeBytes_toLeBytes_64 hp, fromLeBytes_toLeBytes_32 hl]
    rw [if_neg (by simp [List.length_append])]
    rw [List.take_append_of_le_length (by omega), List.take_of_length_le (by omega)]
  rw [multiParseFuel_item hnext]
  have h12 : (12 : Nat) + pl.length = (encodeItem (p, pl)).length + 0 := by
    simp [length_encodeItem]
  rw [h12, multiParseFuel_shift]

theorem multiParse_nil : multiParse [] = .ok [] := rfl

/-- A non-empty buffer shorter than an item header is rejected at once. -/
theorem MultiRecord.next_zero_short {l : List Nat} (h0 : 0 < l.length) (h : l.length < 12) :
    MultiRecord.next l 0 = .corrupt l.length := by
  unfold MultiRecord.next
  rw [List.drop_zero, if_neg (by omega), if_neg (by omega), if_pos h]

/-- Cutting a serialized item strictly inside its payload (but past its
header) is detected: the remaining bytes are fewer than the announced
length. -/
theorem MultiRecord.next_zero_cut_mid {p : Nat} {pl S : List Nat} {n : Nat}
    (h1 : 12 ≤ n) (h2 : n < 12 + pl.length) (hl : pl.length < 2 ^ 32) :
    MultiRecord.next ((encodeItem (p, pl) ++ S).take n) 0 = .corrupt (n - 12) := by
  have hbuflen : (encodeItem (p, pl) ++ S).length = 12 + pl.length + S.length := by
    rw [List.length_append, length_encodeItem]
  have hPlen : ((encodeItem (p, pl) ++ S).take n).length = n := by
    rw [List.length_take]; omega
  have h4 : (((encodeItem (p, pl) ++ S).take n).drop 8).take 4 = toLeBytes 4 pl.length := by
    rw [List.drop_take, List.take_take]
    have hmin : min 4 (n - 8) = 4 := by omega
    rw [hmin]
    have henc : encodeItem (p, pl) ++ S =
        toLeBytes 8 p ++ (toLeBytes 4 pl.length ++ (pl ++ S)) := by
      simp [encodeItem, List.append_assoc]
    rw [henc, List.drop_append_of_le_length (by simp [length_toLeBytes]),
      List.drop_of_length_le (by simp [length_toLeBytes]), List.nil_append,
      List.take_append_of_le_length (by simp [length_toLeBytes]),
      List.take_of_length_le (by simp [length_toLeBytes])]
  unfold MultiRecord.next
  rw [List.drop_zero, if_neg (by omega), if_neg (by omega), if_neg (by omega), h4,
    fromLeBytes_toLeBytes_32 hl, if_pos (by rw [List.length_drop, hPlen]; omega),
    List.length_drop, hPlen]

/-- Characterization of validating a strict prefix of a serialized blob:
either the cut is detected as corruption, or the cut lands exactly on an
item boundary and the prefix parses as the corresponding strict prefix of
the item list. -/
theorem multiParse_take_characterization :
    ∀ items : List (Nat × List Nat), (∀ it ∈ items, wfItem it) →
      ∀ n, n < (MultiRecord.serialize_with_pos items).length →
        multiParse ((MultiRecord.serialize_with_pos items).take n) = .corrupt ∨
          ∃ k, k < items.length ∧
            (MultiRecord.serialize_with_pos items).take n =
              MultiRecord.serialize_with_pos (items.take k) ∧
            multiParse ((MultiRecord.serialize_with_pos items).take n) =
              .ok (items.take k) := by
  intro items
  induction items with
  | nil => intro _ n hn; simp [MultiRecord.serialize_with_pos] at hn
  | cons it rest ih =>
    intro hwf n hn
    obtain ⟨p, pl⟩ := it
    obtain ⟨hp, hl⟩ := hwf (p, pl) (by simp)
    have hswp : MultiRecord.serialize_with_pos ((p, pl) :: rest) =
        encodeItem (p, pl) ++ MultiRecord.serialize_with_pos rest := rfl
    rw [hswp] at hn ⊢
    have hbuflen : (encodeItem (p, pl) ++ MultiRecord.serialize_with_pos rest).length =
        12 + pl.length + (MultiRecord.serialize_with_pos rest).length := by
      rw [List.length_append, length_encodeItem]
    by_cases hn0 : n = 0
    · right
      refine ⟨0, by simp, ?_, ?_⟩
      · rw [hn0]; rfl
      · rw [hn0]; exact multiParse_nil
    · have hPlen : ((encodeItem (p, pl) ++ MultiRecord.serialize_with_pos rest).take n).length
          = n := by rw [List.length_take]; omega
      by_cases hn12 : n < 12
      · left
        unfold multiParse
        rw [hPlen]
        exact multiParseFuel_corrupt
          (MultiRecord.next_zero_short (by omega) (by rw [hPlen]; omega))
      · by_cases hmid : n < 12 + pl.length
        · left
          unfold multiParse
          rw [hPlen]
          exact multiParseFuel_corrupt (MultiRecord.next_zero_cut_mid (by omega) hmid hl)
        · -- the cut is past the first item
          have hi : n - (12 + pl.length) < (MultiRecord.serialize_with_pos rest).length := by
            omega
          have hcut : (encodeItem (p, pl) ++ MultiRecord.serialize_with_pos rest).take n =
              encodeItem (p, pl) ++
                (MultiRecord.serialize_with_pos rest).take (n - (12 + pl.length)) := by
            rw [List.take_append_eq_append_take,
              List.take_of_length_le (by rw [length_encodeItem_pair]; omega),
              length_encodeItem_pair]
          have htakelen : ((MultiRecord.serialize_with_pos rest).take
              (n - (12 + pl.length))).length = n - (12 + pl.length) := by
            rw [List.length_take]; omega
          have hcf := @multiParseFuel_congr_fuel
            ((MultiRecord.serialize_with_pos rest).take (n - (12 + pl.length)))
            n (n - (12 + pl.length) + 1) 0
            (by omega) (by simp only [htakelen]; omega) (by simp only [htakelen]; omega)
          rcases ih (fun x hx => hwf x (by simp [hx])) (n - (12 + pl.length)) hi with
            hc | ⟨k, hk, heq, hok⟩
          · left
            unfold multiParse at hc
            rw [htakelen] at hc
            unfold multiParse
            rw [hPlen, hcut, multiParseFuel_encodeItem_append _ n hp hl, hcf, hc]
          · right
            refine ⟨k + 1, by simp; omega, ?_, ?_⟩
            · rw [hcut, heq]
              rfl
            · unfold multiParse at hok
              rw [htakelen] at hok
              unfold multiParse
              rw [hPlen, hcut, multiParseFuel_encodeItem_append _ n hp hl, hcf, hok]
              rfl

/-- Validating a serialized blob succeeds and returns exactly the items
that were serialized. -/
theorem multiParse_serialize_with_pos :
    ∀ items : List (Nat × List Nat), (∀ it ∈ items, wfItem it) →
      multiParse (MultiRecord.serialize_with_pos items) = .ok items := by
  intro items
  induction items with
  | nil => intro _; rfl
  | cons it rest ih =>
    intro h
    obtain ⟨p, pl⟩ := it
    obtain ⟨hp, hl⟩ := h (p, pl) (by simp)
    have hrest := ih (fun x hx => h x (by simp [hx]))
    unfold multiParse at hrest ⊢
    show multiParseFuel (MultiRecord.serialize_with_pos ((p, pl) :: rest)) _ 0 = _
    have hswp : MultiRecord.serialize_with_pos ((p, pl) :: rest) =
        encodeItem (p, pl) ++ MultiRecord.serialize_with_pos rest := rfl
    rw [hswp]
    have hlen : (encodeItem (p, pl) ++ MultiRecord.serialize_with_pos rest).length =
        12 + pl.length + (MultiRecord.serialize_with_pos rest).length := by
      rw [List.length_append, length_encodeItem]
    rw [hlen]
    rw [multiParseFuel_encodeItem_append _ _ hp hl]
    rw [multiParseFuel_congr_fuel (12 + pl.length + (MultiRecord.serialize_with_pos rest).length)
      ((MultiRecord.serialize_with_pos rest).length + 1) 0 (by omega) (by omega) (by omega),
      hrest]

/-! ## Frame-level codec lemmas -/

theorem RecordType.try_from_toNat (tag : RecordType) :
    RecordType.try_from tag.toNat = some tag := by
  cases tag <;> rfl

/-- A serialized frame followed by any suffix, reassociated to expose its
header fields. -/
theorem serializeFields_append (tag : RecordType) (position : Nat)
    (queue payload extra : List Nat) :
    serializeFields tag position queue payload ++ extra =
      [tag.toNat] ++ (toLeBytes 8 position ++
        (toLeBytes 2 queue.length ++ (queue ++ (payload ++ extra)))) := by
  simp [serializeFields, List.append_assoc]

theorem length_serializeFields_append (tag : RecordType) (position : Nat)
    (queue payload extra : List Nat) :
    (serializeFields tag position queue payload ++ extra).length =
      11 + queue.length + payload.length + extra.length := by
  rw [serializeFields_append]
  simp [length_toLeBytes]
  omega

theorem serializeFields_headD (tag : RecordType) (position : Nat)
    (queue payload extra : List Nat) :
    (serializeFields tag position queue payload ++ extra).headD 0 = tag.toNat := by
  rw [serializeFields_append]
  rfl

theorem serializeFields_drop1 (tag : RecordType) (position : Nat)
    (queue payload extra : List Nat) :
    (serializeFields tag position queue payload ++ extra).drop 1 =
      toLeBytes 8 position ++ (toLeBytes 2 queue.length ++ (queue ++ (payload ++ extra))) := by
  rw [serializeFields_append, List.drop_left' (by simp)]

theorem serializeFields_drop9 (tag : RecordType) (position : Nat)
    (queue payload extra : List Nat) :
    (serializeFields tag position queue payload ++ extra).drop 9 =
      toLeBytes 2 queue.length ++ (queue ++ (payload ++ extra)) := by
  rw [serializeFields_append, ← List.append_assoc,
    List.drop_left' (by simp [length_toLeBytes])]

theorem serializeFields_drop11 (tag : RecordType) (position : Nat)
    (queue payload extra : List Nat) :
    (serializeFields tag position queue payload ++ extra).drop 11 =
      queue ++ (payload ++ extra) := by
  rw [serializeFields_append, ← List.append_assoc, ← List.append_assoc,
    List.drop_left' (by simp [length_toLeBytes])]

theorem headerPosition_serializeFields (tag : RecordType) {position : Nat}
    (queue payload extra : List Nat) (hp : position < 2 ^ 64) :
    headerPosition (serializeFields tag position queue payload ++ extra) = position := by
  unfold headerPosition
  rw [serializeFields_drop1, List.take_append_of_le_length (by simp [length_toLeBytes]),
    List.take_of_length_le (by simp [length_toLeBytes]), fromLeBytes_toLeBytes_64 hp]

theorem headerQueueLen_serializeFields (tag : RecordType) (position : Nat)
    {queue : List Nat} (payload extra : List Nat) (hlen : queue.length ≤ 65535) :
    headerQueueLen (serializeFields tag position queue payload ++ extra) = queue.length := by
  unfold headerQueueLen
  rw [serializeFields_drop9, List.take_append_of_le_length (by simp [length_toLeBytes]),
    List.take_of_length_le (by simp [length_toLeBytes]),
    fromLeBytes_toLeBytes_16 (by norm_num; omega)]

theorem headerQueue_serializeFields (tag : RecordType) (position : Nat)
    {queue : List Nat} (payload extra : List Nat) (hlen : queue.length ≤ 65535) :
    headerQueue (serializeFields tag position queue payload ++ extra) = queue := by
  unfold headerQueue
  rw [serializeFields_drop11, headerQueueLen_serializeFields tag position payload extra hlen,
    List.take_append_of_le_length (le_refl queue.length), List.take_of_length_le (le_refl _)]

theorem headerPayload_serializeFields (tag : RecordType) (position : Nat)
    {queue : List Nat} (payload extra : List Nat) (hlen : queue.length ≤ 65535) :
    headerPayload (serializeFields tag position queue payload ++ extra) = payload ++ extra := by
  unfold headerPayload
  rw [serializeFields_drop11, headerQueueLen_serializeFields tag position payload extra hlen,
    List.drop_left]

/-- Deserializing a serialized frame (with any trailing suffix): the
header decodes to the original fields, and the variant payload is the
serialized payload followed by the suffix. -/
theorem deserialize_serializeFields (tag : RecordType) (position : Nat)
    (queue payload extra : List Nat) (hp : position < 2 ^ 64)
    (hq : isUtf8 queue = true) (hlen : queue.length ≤ 65535) :
    MultiPlexedRecord.deserialize (serializeFields tag position queue payload ++ extra) =
      match tag with
      | .AppendRecords =>
        match MultiRecord.new (payload ++ extra) with
        | .ok mr => .found (.AppendRecords queue position mr)
        | .corrupted => .nothing
        | .panic => .panic
      | .Truncate => .found (.Truncate queue position)
      | .Touch => .found (.RecordPosition queue position)
      | .DeleteQueue => .found (.DeleteQueue queue position) := by
  unfold MultiPlexedRecord.deserialize
  rw [if_neg (by rw [length_serializeFields_append]; omega),
    serializeFields_headD, RecordType.try_from_toNat]
  show MultiPlexedRecord.deserializeTagged _ tag = _
  unfold MultiPlexedRecord.deserializeTagged
  rw [headerQueueLen_serializeFields tag position payload extra hlen,
    serializeFields_drop11, if_neg (by simp [List.length_append]),
    headerQueue_serializeFields tag position payload extra hlen, hq, if_pos rfl,
    headerPosition_serializeFields tag queue payload extra hp,
    headerPayload_serializeFields tag position payload extra hlen]

/-- `MultiRecord::new` either rejects the buffer as corrupted or returns
the record with the offset reset to zero. -/
theorem MultiRecord.new_cases (b : List Nat) :
    MultiRecord.new b = .corrupted ∨ MultiRecord.new b = .ok ⟨b, 0⟩ := by
  unfold MultiRecord.new
  rcases multiParse_result b with h | ⟨items, h⟩ <;> rw [h] <;> simp

/-- The items produced by `zipFrom` are well formed when the payload
lengths fit a `u32` and the positions stay below `2 ^ 64`. -/
theorem wf_zipFrom :
    ∀ (payloads : List (List Nat)) (position : Nat),
      (∀ pl ∈ payloads, pl.length < 2 ^ 32) → position + payloads.length ≤ 2 ^ 64 →
      ∀ it ∈ zipFrom position payloads, wfItem it := by
  intro payloads
  induction payloads with
  | nil => intro position _ _ it hit; simp [zipFrom] at hit
  | cons pl rest ih =>
    intro position hlen hpos it hit
    simp only [zipFrom, List.mem_cons] at hit
    rcases hit with h | h
    · subst h
      exact ⟨by simp at hpos; omega, hlen pl (by simp)⟩
    · exact ih (position + 1) (fun x hx => hlen x (by simp [hx]))
        (by simp at hpos ⊢; omega) it h

/-- Any strict prefix of a frame whose variant payload is empty
deserializes to `None`: either the header is incomplete or the queue bytes
are missing. -/
theorem deserialize_take_nothing (tag : RecordType) (position : Nat) (queue : List Nat)
    (hlen : queue.length ≤ 65535) :
    ∀ n, n < (serializeFields tag position queue []).length →
      MultiPlexedRecord.deserialize ((serializeFields tag position queue []).take n) =
        .nothing := by
  intro n hn
  have hfull : (serializeFields tag position queue []).length = 11 + queue.length := by
    have h := length_serializeFields_append tag position queue [] []
    rw [List.append_nil] at h
    simpa using h
  rw [hfull] at hn
  by_cases h11 : n < 11
  · unfold MultiPlexedRecord.deserialize
    rw [if_pos (by rw [List.length_take]; omega)]
  · have hB : serializeFields tag position queue [] =
        serializeFields tag position queue [] ++ [] := (List.append_nil _).symm
    have htn : ((serializeFields tag position queue []).take n).length = n := by
      rw [List.length_take]; omega
    have hhead : ((serializeFields tag position queue []).take n).headD 0 = tag.toNat := by
      rw [hB, serializeFields_append, List.take_append_eq_append_take,
        List.take_of_length_le (by simp; omega)]
      rfl
    have hql : headerQueueLen ((serializeFields tag position queue []).take n) =
        queue.length := by
      unfold headerQueueLen
      rw [List.drop_take, List.take_take, (by omega : min 2 (n - 9) = 2), hB,
        serializeFields_drop9, List.take_append_of_le_length (by simp [length_toLeBytes]),
        List.take_of_length_le (by simp [length_toLeBytes]),
        fromLeBytes_toLeBytes_16 (by norm_num; omega)]
    have hrem : (((serializeFields tag position queue []).take n).drop 11).length = n - 11 := by
      rw [List.length_drop, htn]
    unfold MultiPlexedRecord.deserialize
    rw [if_neg (by rw [htn]; omega), hhead, RecordType.try_from_toNat]
    show MultiPlexedRecord.deserializeTagged _ tag = _
    unfold MultiPlexedRecord.deserializeTagged
    rw [hql, if_pos (by rw [hrem]; omega)]

/-- C4, counterexample: a record value whose blob passes its own
validation but whose `byte_offset` is not zero (as after iterating the
records to the end) does not round-trip: `serialize` ignores the offset
and `deserialize` resets it to zero, and the derived `PartialEq` compares
the offset. -/
theorem codec_round_trip_counterexample :
    multiParse (encodeItem (0, [])) = .ok [(0, [])] ∧
    MultiPlexedRecord.deserialize
        (MultiPlexedRecord.serialize (.AppendRecords [113] 0 ⟨encodeItem (0, []), 12⟩)) ≠
      .found (.AppendRecords [113] 0 ⟨encodeItem (0, []), 12⟩) := by
  constructor
  · decide
  · decide

/-- C4 (amended): for every well-formed record value whose `AppendRecords`
blob is in the reset state produced by `MultiRecord::new` (validated, with
`byte_offset = 0`), deserializing the serialized bytes yields exactly the
record: serialize followed by deserialize is the identity on such
records. -/
theorem codec_round_trip_reset_offset (r : MultiPlexedRecord) (hwf : wfFrame r)
    (hblob : validBlob r) :
    MultiPlexedRecord.deserialize r.serialize = .found r := by
  obtain ⟨hp, hq, hlen⟩ := hwf
  cases r with
  | AppendRecords queue position records =>
    have hb : MultiRecord.new records.buffer = .ok records := hblob
    have h := deserialize_serializeFields .AppendRecords position queue records.buffer []
      hp hq hlen
    simp only [List.append_nil] at h
    exact h.trans (by rw [hb])
  | Truncate queue position =>
    have h := deserialize_serializeFields .Truncate position queue [] [] hp hq hlen
    simp only [List.append_nil] at h
    exact h
  | RecordPosition queue position =>
    have h := deserialize_serializeFields .Touch position queue [] [] hp hq hlen
    simp only [List.append_nil] at h
    exact h
  | DeleteQueue queue position =>
    have h := deserialize_serializeFields .DeleteQueue position queue [] [] hp hq hlen
    simp only [List.append_nil] at h
    exact h

/-- C4, witness. -/
theorem codec_round_trip_reset_offset_witness :
    MultiPlexedRecord.deserialize
        (MultiPlexedRecord.serialize (.AppendRecords [113] 5 ⟨encodeItem (7, [1, 2]), 0⟩)) =
      .found (.AppendRecords [113] 5 ⟨encodeItem (7, [1, 2]), 0⟩) :=
  codec_round_trip_reset_offset (.AppendRecords [113] 5 ⟨encodeItem (7, [1, 2]), 0⟩)
    (by decide) (by decide)

/-- C5, counterexample: a strict prefix of a serialized frame can
deserialize to `Some`, and a strict prefix of a serialized multi-payload
blob can pass `MultiRecord::new`, whenever the cut lands on an item
boundary — the claim's universal `None` / corruption is false.  Here the
24-byte `AppendRecords` frame cut to its first 12 bytes (header plus
queue name) deserializes to a record with an empty blob, and the 2-item
blob cut at the first item boundary validates. -/
theorem truncated_frame_counterexample :
    12 < (MultiPlexedRecord.serialize
        (.AppendRecords [113] 0 ⟨encodeItem (0, []), 0⟩)).length ∧
    MultiPlexedRecord.deserialize
        ((MultiPlexedRecord.serialize
          (.AppendRecords [113] 0 ⟨encodeItem (0, []), 0⟩)).take 12) =
      .found (.AppendRecords [113] 0 ⟨[], 0⟩) ∧
    13 < (MultiRecord.serialize_with_pos [(5, [1]), (6, [2])]).length ∧
    MultiRecord.new ((MultiRecord.serialize_with_pos [(5, [1]), (6, [2])]).take 13) =
      .ok ⟨(MultiRecord.serialize_with_pos [(5, [1]), (6, [2])]).take 13, 0⟩ := by
  refine ⟨by decide, by decide, by decide, by decide⟩

/-- C5 (amended): every strict prefix of a serialized `Truncate`,
`RecordPosition` or `DeleteQueue` frame deserializes to `None` (and no
panic arises); a strict prefix of a serialized multi-payload blob is
rejected as corrupt unless the cut lands exactly on an item boundary, in
which case it validates and parses as the corresponding strict prefix of
the item list (so `AppendRecords` frames cut at such boundaries can
deserialize successfully to a record with fewer items). -/
theorem truncated_frame_characterization :
    (∀ (queue : List Nat) (position n : Nat), queue.length ≤ 65535 →
      n < (MultiPlexedRecord.serialize (.Truncate queue position)).length →
      MultiPlexedRecord.deserialize
        ((MultiPlexedRecord.serialize (.Truncate queue position)).take n) = .nothing) ∧
    (∀ (queue : List Nat) (position n : Nat), queue.length ≤ 65535 →
      n < (MultiPlexedRecord.serialize (.RecordPosition queue position)).length →
      MultiPlexedRecord.deserialize
        ((MultiPlexedRecord.serialize (.RecordPosition queue position)).take n) = .nothing) ∧
    (∀ (queue : List Nat) (position n : Nat), queue.length ≤ 65535 →
      n < (MultiPlexedRecord.serialize (.DeleteQueue queue position)).length →
      MultiPlexedRecord.deserialize
        ((MultiPlexedRecord.serialize (.DeleteQueue queue position)).take n) = .nothing) ∧
    (∀ items : List (Nat × List Nat), (∀ it ∈ items, wfItem it) →
      ∀ n, n < (MultiRecord.serialize_with_pos items).length →
        multiParse ((MultiRecord.serialize_with_pos items).take n) = .corrupt ∨
          ∃ k, k < items.length ∧
            (MultiRecord.serialize_with_pos items).take n =
              MultiRecord.serialize_with_pos (items.take k) ∧
            multiParse ((MultiRecord.serialize_with_pos items).take n) =
              .ok (items.take k)) := by
  refine ⟨?_, ?_, ?_, multiParse_take_characterization⟩
  · intro queue position n hq hn
    exact deserialize_take_nothing .Truncate position queue hq n hn
  · intro queue position n hq hn
    exact deserialize_take_nothing .Touch position queue hq n hn
  · intro queue position n hq hn
    exact deserialize_take_nothing .DeleteQueue position queue hq n hn

/-- C5, witness. -/
theorem truncated_frame_characterization_witness :
    MultiPlexedRecord.deserialize
        ((MultiPlexedRecord.serialize (.Truncate [113] 4)).take 7) = .nothing ∧
    (multiParse ((MultiRecord.serialize_with_pos [(5, [1]), (6, [2])]).take 6) = .corrupt ∨
      ∃ k, k < ([(5, [1]), (6, [2])] : List (Nat × List Nat)).length ∧
        (MultiRecord.serialize_with_pos [(5, [1]), (6, [2])]).take 6 =
          MultiRecord.serialize_with_pos
            (([(5, [1]), (6, [2])] : List (Nat × List Nat)).take k) ∧
        multiParse ((MultiRecord.serialize_with_pos [(5, [1]), (6, [2])]).take 6) =
          .ok (([(5, [1]), (6, [2])] : List (Nat × List Nat)).take k)) :=
  ⟨truncated_frame_characterization.1 [113] 4 7 (by decide) (by decide),
   truncated_frame_characterization.2.2.2 [(5, [1]), (6, [2])] (by decide) 6 (by decide)⟩

/-- C6, counterexample: `MultiRecord::new` does not assert monotonicity of
the item positions: the blob with positions 1 then 0 (not increasing) is
accepted, and parsing returns those positions unchanged.  (The source
even carries a `TODO add assert for position monotonicity?`.) -/
theorem multirecord_monotonicity_counterexample :
    MultiRecord.new (MultiRecord.serialize_with_pos [(1, []), (0, [])]) =
      .ok ⟨MultiRecord.serialize_with_pos [(1, []), (0, [])], 0⟩ ∧
    multiParse (MultiRecord.serialize_with_pos [(1, []), (0, [])]) = .ok [(1, []), (0, [])] := by
  refine ⟨by decide, by decide⟩

/-- C6 (amended): `MultiRecord::serialize` assigns the consecutive
positions `position, position + 1, …` to the payloads it writes (parsing
the serialized blob returns exactly the payloads paired with those
positions); however `MultiRecord::new` validates only the item framing
and accepts blobs whose positions are not strictly increasing. -/
theorem multirecord_serialize_consecutive_positions (payloads : List (List Nat))
    (position : Nat) (hlen : ∀ pl ∈ payloads, pl.length < 2 ^ 32)
    (hpos : position + payloads.length ≤ 2 ^ 64) :
    multiParse (MultiRecord.serialize payloads position) = .ok (zipFrom position payloads) ∧
    MultiRecord.new (MultiRecord.serialize_with_pos [(1, []), (0, [])]) =
      .ok ⟨MultiRecord.serialize_with_pos [(1, []), (0, [])], 0⟩ := by
  constructor
  · exact multiParse_serialize_with_pos (zipFrom position payloads)
      (wf_zipFrom payloads position hlen hpos)
  · decide

/-- C6, witness. -/
theorem multirecord_serialize_consecutive_positions_witness :
    multiParse (MultiRecord.serialize [[7], [8, 9]] 5) = .ok (zipFrom 5 [[7], [8, 9]]) :=
  (multirecord_serialize_consecutive_positions [[7], [8, 9]] 5 (by decide) (by decide)).1

/-- C7: the three payload-less record kinds (`Truncate`,
`RecordPosition`, `DeleteQueue`) serialize to a frame with nothing after
the queue name, and deserialization tolerates and ignores any extra bytes
after the queue name: a frame of one of these kinds carrying trailing
bytes decodes to the same record as the frame without them. -/
theorem payloadless_trailing_bytes_ignored (queue : List Nat) (position : Nat)
    (extra : List Nat) (hp : position < 2 ^ 64) (hq : isUtf8 queue = true)
    (hlen : queue.length ≤ 65535) :
    MultiPlexedRecord.deserialize
        (MultiPlexedRecord.serialize (.Truncate queue position) ++ extra) =
      .found (.Truncate queue position) ∧
    MultiPlexedRecord.deserialize
        (MultiPlexedRecord.serialize (.RecordPosition queue position) ++ extra) =
      .found (.RecordPosition queue position) ∧
    MultiPlexedRecord.deserialize
        (MultiPlexedRecord.serialize (.DeleteQueue queue position) ++ extra) =
      .found (.DeleteQueue queue position) :=
  ⟨deserialize_serializeFields .Truncate position queue [] extra hp hq hlen,
   deserialize_serializeFields .Touch position queue [] extra hp hq hlen,
   deserialize_serializeFields .DeleteQueue position queue [] extra hp hq hlen⟩

/-- C7, witness. -/
theorem payloadless_trailing_bytes_ignored_witness :
    MultiPlexedRecord.deserialize
        (MultiPlexedRecord.serialize (.Truncate [113] 4) ++ [9, 9, 9]) =
      .found (.Truncate [113] 4) :=
  (payloadless_trailing_bytes_ignored [113] 4 [9, 9, 9] (by decide) (by decide) (by decide)).1

/-- C9: on every byte buffer whatsoever — not only prefixes of valid
frames — `MultiPlexedRecord::deserialize` terminates with `Some` or
`None` and never panics: every slice access is guarded by a length
check. -/
theorem deserialize_no_panic (buffer : List Nat) :
    MultiPlexedRecord.deserialize buffer ≠ .panic ∧
    (MultiPlexedRecord.deserialize buffer = .nothing ∨
      ∃ r, MultiPlexedRecord.deserialize buffer = .found r) := by
  have hmain : MultiPlexedRecord.deserialize buffer ≠ .panic := by
    unfold MultiPlexedRecord.deserialize
    split
    · simp
    · split
      · simp
      · unfold MultiPlexedRecord.deserializeTagged
        split
        · simp
        · split
          · split
            · rcases MultiRecord.new_cases (headerPayload buffer) with h | h <;>
                rw [h] <;> simp
            · simp
            · simp
            · simp
          · simp
  refine ⟨hmain, ?_⟩
  rcases h : MultiPlexedRecord.deserialize buffer with _ | _ | r
  · exact absurd h hmain
  · exact Or.inl rfl
  · exact Or.inr ⟨r, rfl⟩

/-- C10: validation in `MultiRecord::new` terminates on every input
buffer: the loop never runs out of the structural fuel and never panics;
every successfully parsed item advances the iteration offset by at least
12 bytes; and on a malformed item the iterator sets its offset to the
length of the remaining slice (here 4, on a 20-byte buffer read from
offset 16) rather than to the end of the buffer, so the error — which
aborts validation — is what guarantees progress, not the offset update. -/
theorem multirecord_new_terminates :
    (∀ buffer : List Nat, multiParse buffer ≠ .fuelOut ∧ MultiRecord.new buffer ≠ .panic) ∧
    (∀ (buffer : List Nat) (off p off' : Nat) (pl : List Nat),
      MultiRecord.next buffer off = .item p pl off' → off + 12 ≤ off') ∧
    MultiRecord.next (List.replicate 20 0) 16 = .corrupt 4 := by
  refine ⟨?_, ?_, by decide⟩
  · intro buffer
    constructor
    · rcases multiParse_result buffer with h | ⟨items, h⟩ <;> rw [h] <;> simp
    · rcases MultiRecord.new_cases buffer with h | h <;> rw [h] <;> simp
  · intro buffer off p off' pl h
    exact (MultiRecord.next_item_bounds h).1

/-- C10, witness. -/
theorem multirecord_new_terminates_witness : 0 + 12 ≤ 12 :=
  multirecord_new_terminates.2.1 (encodeItem (3, [])) 0 3 12 [] (by decide)

/-! ## Engine lemmas -/

/-- A queue with a known `next_position` accepts an append at exactly that
position, producing the spec-mandated update. -/
theorem MemQueues.append_record_of_next_position {m : MemQueues} {queue : String} {np : Nat}
    (h : m.next_position queue = some np) (file_number : FileNumber) (payload : List Nat) :
    ∃ mq, m.find_queue queue = some mq ∧ mq.next_position = np ∧
      m.append_record queue file_number np payload =
        .ok (m.update_queue queue
          ⟨np + 1, mq.records ++ [(np, file_number, payload)],
            if mq.records.isEmpty then file_number else mq.first_file_number⟩) := by
  unfold MemQueues.next_position at h
  rcases hf : m.find_queue queue with _ | mq
  · rw [hf] at h; simp at h
  · rw [hf] at h
    simp only [Option.map_some'] at h
    have hnp : mq.next_position = np := by injection h
    refine ⟨mq, rfl, hnp, ?_⟩
    simp only [MemQueues.append_record, hf, if_pos hnp.symm]

/-- Evaluation of `append_record` in the `Future` case. -/
theorem MultiRecordLog.append_eval_future {l : MultiRecordLog} {queue : String} {np p : Nat}
    (payload : List Nat) (h : l.in_mem_queues.next_position queue = some np)
    (hf : np < p) :
    l.append_record queue (some p) payload = (.error .Future, l) := by
  simp only [MultiRecordLog.append_record, h, if_pos hf]

/-- Evaluation of `append_record` in the idempotent no-op case. -/
theorem MultiRecordLog.append_eval_noop {l : MultiRecordLog} {queue : String} {np p : Nat}
    (payload : List Nat) (h : l.in_mem_queues.next_position queue = some np)
    (hf : p + 1 = np) :
    l.append_record queue (some p) payload = (.ok none, l) := by
  simp only [MultiRecordLog.append_record, h, if_neg (by omega : ¬np < p), if_pos hf]

/-- Evaluation of `append_record` in the `Past` case. -/
theorem MultiRecordLog.append_eval_past {l : MultiRecordLog} {queue : String} {np p : Nat}
    (payload : List Nat) (h : l.in_mem_queues.next_position queue = some np)
    (hf : p + 1 < np) :
    l.append_record queue (some p) payload = (.error .Past, l) := by
  simp only [MultiRecordLog.append_record, h, if_neg (by omega : ¬np < p),
    if_neg (by omega : ¬p + 1 = np), if_pos (by omega : p < np)]

/-- Evaluation of `append_record` when the supplied position equals
`next_position`: it proceeds with the write-then-apply tail. -/
theorem MultiRecordLog.append_eval_go {l : MultiRecordLog} {queue : String} {np p : Nat}
    (payload : List Nat) (h : l.in_mem_queues.next_position queue = some np)
    (hf : p = np) :
    l.append_record queue (some p) payload = l.append_go queue p payload := by
  simp only [MultiRecordLog.append_record, h, if_neg (by omega : ¬np < p),
    if_neg (by omega : ¬p + 1 = np), if_neg (by omega : ¬p < np)]

/-- Evaluation of the write-then-apply tail at the queue's
`next_position`: the frame is appended to the log and the in-memory index
is updated. -/
theorem MultiRecordLog.append_go_eval {l : MultiRecordLog} {queue : String} {np : Nat}
    (payload : List Nat) (h : l.in_mem_queues.next_position queue = some np) :
    ∃ m', l.in_mem_queues.append_record queue l.cur_file np payload = .ok m' ∧
      l.append_go queue np payload =
        (.ok (some np),
          { record_log := l.record_log ++ [(l.cur_file, .AppendRecord queue np payload)],
            in_mem_queues := m',
            cur_file := l.cur_file }) := by
  obtain ⟨mq, hfq, hnp, happ⟩ := MemQueues.append_record_of_next_position h l.cur_file payload
  refine ⟨_, happ, ?_⟩
  simp only [MultiRecordLog.append_go, MultiRecordLog.write_record, happ]

/-- C3: for an existing queue with `next_position = np`,
`append_record(queue, Some(p), payload)` fails with `Future` iff `p > np`;
it is a no-op returning `None` (no frame written, no state change) iff
`p + 1 = np`; it fails with `Past` iff `p < np` and `p + 1 < np`; and when
`p = np` it writes the `AppendRecord` frame, applies the append to the
in-memory index and returns `Some(p)`. -/
theorem append_record_idempotence_cases (l : MultiRecordLog) (queue : String)
    (np p : Nat) (payload : List Nat)
    (h : l.in_mem_queues.next_position queue = some np) :
    ((l.append_record queue (some p) payload).1 = .error .Future ↔ np < p) ∧
    ((l.append_record queue (some p) payload).1 = .ok none ↔ p + 1 = np) ∧
    (p + 1 = np → l.append_record queue (some p) payload = (.ok none, l)) ∧
    ((l.append_record queue (some p) payload).1 = .error .Past ↔ p < np ∧ p + 1 < np) ∧
    (p = np →
      ∃ m', l.in_mem_queues.append_record queue l.cur_file p payload = .ok m' ∧
        l.append_record queue (some p) payload =
          (.ok (some p),
            { record_log := l.record_log ++ [(l.cur_file, .AppendRecord queue p payload)],
              in_mem_queues := m',
              cur_file := l.cur_file })) := by
  have hgo : p = np →
      ∃ m', l.in_mem_queues.append_record queue l.cur_file p payload = .ok m' ∧
        l.append_record queue (some p) payload =
          (.ok (some p),
            { record_log := l.record_log ++ [(l.cur_file, .AppendRecord queue p payload)],
              in_mem_queues := m',
              cur_file := l.cur_file }) := by
    intro hp
    subst hp
    obtain ⟨m', hm, hev⟩ := MultiRecordLog.append_go_eval payload h
    exact ⟨m', hm, by rw [MultiRecordLog.append_eval_go payload h rfl, hev]⟩
  refine ⟨?_, ?_, MultiRecordLog.append_eval_noop payload h, ?_, hgo⟩
  · constructor
    · intro hres
      by_contra hnp
      rcases Nat.lt_trichotomy p np with hc | hc | hc
      · rcases Nat.lt_or_ge (p + 1) np with hc2 | hc2
        · rw [MultiRecordLog.append_eval_past payload h hc2] at hres
          simp at hres
        · rw [MultiRecordLog.append_eval_noop payload h (by omega)] at hres
          simp at hres
      · obtain ⟨m', _, hev⟩ := hgo hc
        rw [hev] at hres
        simp at hres
      · exact hnp hc
    · intro hf
      rw [MultiRecordLog.append_eval_future payload h hf]
  · constructor
    · intro hres
      by_contra hnp
      rcases Nat.lt_trichotomy p np with hc | hc | hc
      · rcases Nat.lt_or_ge (p + 1) np with hc2 | hc2
        · rw [MultiRecordLog.append_eval_past payload h hc2] at hres
          simp at hres
        · omega
      · obtain ⟨m', _, hev⟩ := hgo hc
        rw [hev] at hres
        simp at hres
      · rw [MultiRecordLog.append_eval_future payload h hc] at hres
        simp at hres
    · intro hf
      rw [MultiRecordLog.append_eval_noop payload h hf]
  · constructor
    · intro hres
      rcases Nat.lt_trichotomy p np with hc | hc | hc
      · rcases Nat.lt_or_ge (p + 1) np with hc2 | hc2
        · exact ⟨hc, hc2⟩
        · rw [MultiRecordLog.append_eval_noop payload h (by omega)] at hres
          simp at hres
      · obtain ⟨m', _, hev⟩ := hgo hc
        rw [hev] at hres
        simp at hres
      · rw [MultiRecordLog.append_eval_future payload h hc] at hres
        simp at hres
    · intro hf
      rw [MultiRecordLog.append_eval_past payload h hf.2]

/-- C3, witness. -/
theorem append_record_idempotence_cases_witness :
    (MultiRecordLog.append_record
        ⟨[(0, .Touch "q" 0), (0, .AppendRecord "q" 0 [97])],
          [("q", ⟨1, [(0, 0, [97])], 0⟩)], 0⟩
        "q" (some 0) [98]).1 = .ok none :=
  ((append_record_idempotence_cases
      ⟨[(0, .Touch "q" 0), (0, .AppendRecord "q" 0 [97])],
        [("q", ⟨1, [(0, 0, [97])], 0⟩)], 0⟩
      "q" 1 0 [98] (by decide)).2.1).mpr (by decide)

/-- C8: `create_queue` writes (and flushes) the
`RecordPosition{position: 0}` frame before the in-memory existence check:
when the queue already exists it returns `AlreadyExists` yet the log has
gained the frame and the index is unchanged; when the queue does not
exist the same frame is written and the queue is created with
`next_position = 0`. -/
theorem create_queue_writes_frame_before_check (l : MultiRecordLog) (queue : String) :
    (∃ tl, traceCreate l queue =
      Event.writeEv l.cur_file (.Touch queue 0) :: Event.flushEv :: tl) ∧
    (l.queue_exists queue = true →
      l.create_queue queue =
        (.error .AlreadyExists,
          { l with record_log := l.record_log ++ [(l.cur_file, .Touch queue 0)] })) ∧
    (l.queue_exists queue = false →
      l.create_queue queue =
        (.ok (),
          { record_log := l.record_log ++ [(l.cur_file, .Touch queue 0)],
            in_mem_queues := l.in_mem_queues ++ [(queue, ⟨0, [], l.cur_file⟩)],
            cur_file := l.cur_file })) := by
  refine ⟨⟨_, rfl⟩, ?_, ?_⟩
  · intro hex
    have hex' : l.in_mem_queues.contains_queue queue = true := hex
    simp only [MultiRecordLog.create_queue, MultiRecordLog.write_record,
      MemQueues.create_queue, hex', if_pos]
  · intro hex
    have hex' : l.in_mem_queues.contains_queue queue = false := hex
    simp only [MultiRecordLog.create_queue, MultiRecordLog.write_record,
      MemQueues.create_queue, hex', Bool.false_eq_true, if_false]

/-- C8, witness. -/
theorem create_queue_writes_frame_before_check_witness :
    MultiRecordLog.create_queue ⟨[(0, .Touch "q" 0)], [("q", ⟨0, [], 0⟩)], 1⟩ "q" =
      (.error .AlreadyExists,
        ⟨[(0, .Touch "q" 0), (1, .Touch "q" 0)], [("q", ⟨0, [], 0⟩)], 1⟩) ∧
    MultiRecordLog.create_queue MultiRecordLog.empty "q" =
      (.ok (), ⟨[(0, .Touch "q" 0)], [("q", ⟨0, [], 0⟩)], 0⟩) :=
  ⟨(create_queue_writes_frame_before_check ⟨[(0, .Touch "q" 0)], [("q", ⟨0, [], 0⟩)], 1⟩
      "q").2.1 (by decide),
   (create_queue_writes_frame_before_check MultiRecordLog.empty "q").2.2 (by decide)⟩

/-- C2, counterexample: the trace of a successful `truncate` starts with
the in-memory mutation, before the `Truncate` frame is written and long
before the flush — the claimed universal "write frame → flush → only then
mutate memory" order is false for `truncate`. -/
theorem write_flush_mutate_counterexample :
    mutateCovered (traceTruncate ⟨[], [("q", ⟨1, [(0, 0, [97])], 0⟩)], 0⟩ "q" 0) = false := by
  decide

/-- C2 (amended): `create_queue`, `delete_queue` and `append_record`
follow the strict order write frame → flush → mutate memory (every
in-memory mutation in their traces is preceded by a flush that follows a
frame write); `truncate` instead mutates the in-memory index first and
then writes the `Truncate` frame and the empty-queue `Touch` frames
(applying each touch as it is written), flushing only at the end, before
the gc request. -/
theorem write_flush_mutate_amended :
    (∀ (l : MultiRecordLog) (queue : String), mutateCovered (traceCreate l queue) = true) ∧
    (∀ (l : MultiRecordLog) (queue : String), mutateCovered (traceDelete l queue) = true) ∧
    (∀ (l : MultiRecordLog) (queue : String) (position_opt : Option Nat)
      (payload : List Nat),
      mutateCovered (traceAppend l queue position_opt payload) = true) ∧
    (∀ (l : MultiRecordLog) (queue : String) (position : Nat),
      traceTruncate l queue position = [] ∨
        ∃ mid, traceTruncate l queue position =
          Event.mutateEv :: mid ++ [Event.flushEv, Event.gcEv]) := by
  refine ⟨?_, ?_, ?_, ?_⟩
  · intro l queue
    unfold traceCreate
    rcases l.in_mem_queues.create_queue queue l.cur_file with e | m <;> rfl
  · intro l queue
    unfold traceDelete
    rcases l.in_mem_queues.next_position queue with _ | position
    · rfl
    · dsimp only
      rcases (l.write_record (.DeleteQueue queue position)).in_mem_queues.delete_queue queue
        with e | m <;> rfl
  · intro l queue position_opt payload
    unfold traceAppend
    rcases l.in_mem_queues.next_position queue with _ | next_position
    · rfl
    · have hgo : ∀ p, mutateCovered (traceAppendGo l queue p payload) = true := by
        intro p
        unfold traceAppendGo
        rcases l.in_mem_queues.append_record queue l.cur_file p payload with e | m <;> rfl
      rcases position_opt with _ | position
      · exact hgo next_position
      · dsimp only
        by_cases h1 : next_position < position
        · rw [if_pos h1]; rfl
        · rw [if_neg h1]
          by_cases h2 : position + 1 = next_position
          · rw [if_pos h2]; rfl
          · rw [if_neg h2]
            by_cases h3 : position < next_position
            · rw [if_pos h3]; rfl
            · rw [if_neg h3]
              exact hgo position
  · intro l queue position
    unfold traceTruncate
    rcases l.in_mem_queues.next_position queue with _ | next_position
    · exact Or.inl rfl
    · dsimp only
      by_cases h : next_position ≤ position
      · rw [if_pos h]; exact Or.inl rfl
      · rw [if_neg h]
        refine Or.inr ⟨Event.writeEv l.cur_file (.Truncate queue position) ::
          traceTouchEmpty l.cur_file (l.in_mem_queues.truncate queue position), ?_⟩
        simp

/-! ## Recovery-equivalence lemmas -/

theorem MemQueues.find_queue_middle (q : String) (mq : MemQueue) :
    ∀ (pre rest : MemQueues), (∀ e ∈ pre, e.1 ≠ q) →
      MemQueues.find_queue (pre ++ (q, mq) :: rest) q = some mq := by
  intro pre
  induction pre with
  | nil => intro rest _; simp [MemQueues.find_queue]
  | cons e pre ih =>
    intro rest hpre
    rw [List.cons_append]
    show (if e.1 = q then some e.2 else MemQueues.find_queue (pre ++ (q, mq) :: rest) q) = _
    rw [if_neg (hpre e (by simp)), ih rest (fun x hx => hpre x (by simp [hx]))]

theorem MemQueues.update_queue_middle (q : String) (mq mq' : MemQueue) :
    ∀ (pre rest : MemQueues), (∀ e ∈ pre, e.1 ≠ q) →
      MemQueues.update_queue (pre ++ (q, mq) :: rest) q mq' = pre ++ (q, mq') :: rest := by
  intro pre
  induction pre with
  | nil => intro rest _; simp [MemQueues.update_queue]
  | cons e pre ih =>
    intro rest hpre
    rw [List.cons_append]
    show (if e.1 = q then _ else (e.1, e.2) :: MemQueues.update_queue (pre ++ (q, mq) :: rest) q mq') = _
    rw [if_neg (hpre e (by simp)), ih rest (fun x hx => hpre x (by simp [hx]))]
    simp

theorem MemQueues.remove_queue_middle (q : String) (mq : MemQueue) :
    ∀ (pre rest : MemQueues), (∀ e ∈ pre, e.1 ≠ q) →
      MemQueues.remove_queue (pre ++ (q, mq) :: rest) q = pre ++ rest := by
  intro pre
  induction pre with
  | nil => intro rest _; simp [MemQueues.remove_queue]
  | cons e pre ih =>
    intro rest hpre
    rw [List.cons_append]
    show (if e.1 = q then _ else (e.1, e.2) :: MemQueues.remove_queue (pre ++ (q, mq) :: rest) q) = _
    rw [if_neg (hpre e (by simp)), ih rest (fun x hx => hpre x (by simp [hx]))]
    simp

theorem MemQueues.find_queue_of_not_contains {m : MemQueues} {q : String}
    (h : m.contains_queue q = false) : m.find_queue q = none := by
  unfold MemQueues.contains_queue at h
  rcases hf : m.find_queue q with _ | mq
  · rfl
  · rw [hf] at h; simp at h

theorem MemQueues.not_mem_keys_of_not_contains {q : String} :
    ∀ {m : MemQueues}, m.contains_queue q = false → q ∉ m.map Prod.fst := by
  intro m
  induction m with
  | nil => intro _; simp
  | cons e rest ih =>
    intro h
    unfold MemQueues.contains_queue MemQueues.find_queue at h
    by_cases he : e.1 = q
    · rw [if_pos he] at h; simp at h
    · rw [if_neg he] at h
      simp only [List.map_cons, List.mem_cons]
      rintro (hc | hc)
      · exact he hc.symm
      · exact ih h hc

theorem MemQueues.update_queue_keys (q : String) (mq : MemQueue) :
    ∀ m : MemQueues, (MemQueues.update_queue m q mq).map Prod.fst = m.map Prod.fst := by
  intro m
  induction m with
  | nil => rfl
  | cons e rest ih =>
    unfold MemQueues.update_queue
    by_cases he : e.1 = q
    · rw [if_pos he]; simp [he]
    · rw [if_neg he]; simp [ih]

theorem MemQueues.remove_queue_sublist (q : String) :
    ∀ m : MemQueues, (MemQueues.remove_queue m q).Sublist m := by
  intro m
  induction m with
  | nil => exact List.Sublist.refl _
  | cons e rest ih =>
    unfold MemQueues.remove_queue
    by_cases he : e.1 = q
    · rw [if_pos he]
      exact (List.sublist_cons_self e rest)
    · rw [if_neg he]
      exact List.Sublist.cons₂ e ih

theorem MemQueues.truncate_keys (q : String) (position : Nat) (m : MemQueues) :
    (MemQueues.truncate m q position).map Prod.fst = m.map Prod.fst := by
  unfold MemQueues.truncate
  rcases m.find_queue q with _ | mq
  · rfl
  · exact MemQueues.update_queue_keys q _ m

theorem touch_empty_mem_keys (f : FileNumber) :
    ∀ m : MemQueues, (touch_empty_mem f m).map Prod.fst = m.map Prod.fst := by
  intro m
  induction m with
  | nil => rfl
  | cons e rest ih => simp [touch_empty_mem, ih]

theorem MultiRecordLog.replayFrom_append (start : Except ReadRecordError MemQueues)
    (l1 l2 : List (FileNumber × EngineRecord)) :
    MultiRecordLog.replayFrom start (l1 ++ l2) =
      MultiRecordLog.replayFrom (MultiRecordLog.replayFrom start l1) l2 := by
  unfold MultiRecordLog.replayFrom
  rw [List.foldl_append]

theorem MultiRecordLog.replayFrom_single (m : MemQueues) (fr : FileNumber × EngineRecord) :
    MultiRecordLog.replayFrom (.ok m) [fr] = MultiRecordLog.apply_frame m fr := rfl

theorem MultiRecordLog.replay_append_single (frames : List (FileNumber × EngineRecord))
    (fr : FileNumber × EngineRecord) {m : MemQueues}
    (h : MultiRecordLog.replay frames = .ok m) :
    MultiRecordLog.replay (frames ++ [fr]) = MultiRecordLog.apply_frame m fr := by
  unfold MultiRecordLog.replay at h ⊢
  rw [MultiRecordLog.replayFrom_append, h]
  rfl

/-- Replaying the `Touch` frames written by `touch_empty_queues` over a
state whose tail is the queues being touched pins each empty queue's
`first_file_number` in place. -/
theorem replay_touch_empty_frames (f : FileNumber) :
    ∀ (post pre : MemQueues),
      (∀ e ∈ pre, ∀ e2 ∈ post, e.1 ≠ e2.1) →
      (post.map Prod.fst).Nodup →
      MultiRecordLog.replayFrom (.ok (pre ++ post)) (touch_empty_frames f post) =
        .ok (pre ++ touch_empty_mem f post) := by
  intro post
  induction post with
  | nil => intro pre _ _; simp [touch_empty_frames, touch_empty_mem, MultiRecordLog.replayFrom]
  | cons e rest ih =>
    intro pre hdisj hnodup
    obtain ⟨q, mq⟩ := e
    have hq_rest : ∀ e2 ∈ rest, q ≠ e2.1 := by
      intro e2 he2 hc
      simp only [List.map_cons, List.nodup_cons] at hnodup
      exact hnodup.1 (hc ▸ List.mem_map_of_mem Prod.fst he2)
    have hdisj' : ∀ e ∈ pre ++ [(q, mq)], ∀ e2 ∈ rest, e.1 ≠ e2.1 := by
      intro e he e2 he2
      rcases List.mem_append.mp he with h1 | h1
      · exact hdisj e h1 e2 (by simp [he2])
      · simp at h1
        rw [h1]
        exact hq_rest e2 he2
    have hdisj'' : ∀ e ∈ pre ++ [(q, MemQueue.mk mq.next_position [] f)],
        ∀ e2 ∈ rest, e.1 ≠ e2.1 := by
      intro e he e2 he2
      rcases List.mem_append.mp he with h1 | h1
      · exact hdisj e h1 e2 (by simp [he2])
      · simp at h1
        rw [h1]
        exact hq_rest e2 he2
    have hnodup' : (rest.map Prod.fst).Nodup := by
      simp only [List.map_cons, List.nodup_cons] at hnodup
      exact hnodup.2
    have hpre_q : ∀ e ∈ pre, e.1 ≠ q := fun e he => hdisj e he (q, mq) (by simp)
    by_cases hempty : mq.records.isEmpty
    · have hrecnil : mq.records = [] := List.isEmpty_iff.mp hempty
      have hframes : touch_empty_frames f ((q, mq) :: rest) =
          (f, EngineRecord.Touch q mq.next_position) :: touch_empty_frames f rest := by
        simp [touch_empty_frames, hempty]
      have hmem : touch_empty_mem f ((q, mq) :: rest) =
          (q, { mq with first_file_number := f }) :: touch_empty_mem f rest := by
        simp [touch_empty_mem, hempty]
      rw [hframes, hmem]
      have hstep : MultiRecordLog.apply_frame (pre ++ (q, mq) :: rest)
          (f, EngineRecord.Touch q mq.next_position) =
          .ok (pre ++ (q, ⟨mq.next_position, [], f⟩) :: rest) := by
        unfold MultiRecordLog.apply_frame
        have htouch : MemQueues.touch (pre ++ (q, mq) :: rest) q mq.next_position f =
            .ok (pre ++ (q, ⟨mq.next_position, [], f⟩) :: rest) := by
          unfold MemQueues.touch
          rw [MemQueues.find_queue_middle q mq pre rest hpre_q]
          show (if mq.records.isEmpty then _ else _) = _
          rw [if_pos hempty, MemQueues.update_queue_middle q mq _ pre rest hpre_q]
        dsimp only
        rw [htouch]
      show MultiRecordLog.replayFrom _ (_ :: _) = _
      have hcons : ∀ (s : Except ReadRecordError MemQueues)
          (fr : FileNumber × EngineRecord) (frs : List (FileNumber × EngineRecord)),
          MultiRecordLog.replayFrom s (fr :: frs) =
            MultiRecordLog.replayFrom (MultiRecordLog.replayFrom s [fr]) frs := by
        intro s fr frs
        rw [← MultiRecordLog.replayFrom_append]
        rfl
      rw [hcons, MultiRecordLog.replayFrom_single, hstep]
      have hre := ih (pre ++ [(q, MemQueue.mk mq.next_position [] f)]) hdisj'' hnodup'
      rw [List.append_assoc, List.singleton_append] at hre
      rw [hre]
      have : MemQueue.mk mq.next_position [] f = { mq with first_file_number := f } := by
        rw [← hrecnil]
      rw [this]
      simp
    · have hframes : touch_empty_frames f ((q, mq) :: rest) = touch_empty_frames f rest := by
        simp [touch_empty_frames, hempty]
      have hmem : touch_empty_mem f ((q, mq) :: rest) =
          (q, mq) :: touch_empty_mem f rest := by
        simp [touch_empty_mem, hempty]
      rw [hframes, hmem]
      have hre := ih (pre ++ [(q, mq)]) hdisj' hnodup'
      rw [List.append_assoc, List.singleton_append] at hre
      rw [hre]
      simp

theorem MemQueues.touch_eval_absent {m : MemQueues} {q : String} (pos f : Nat)
    (h : m.find_queue q = none) :
    m.touch q pos f = .ok (m ++ [(q, ⟨pos, [], f⟩)]) := by
  simp only [MemQueues.touch, h]

theorem MemQueues.contains_of_next_position {m : MemQueues} {q : String} {np : Nat}
    (h : m.next_position q = some np) : m.contains_queue q = true := by
  unfold MemQueues.next_position at h
  unfold MemQueues.contains_queue
  rcases hf : m.find_queue q with _ | mq
  · rw [hf] at h; simp at h
  · rfl

theorem MultiRecordLog.create_queue_eval_absent {l : MultiRecordLog} {queue : String}
    (h : l.in_mem_queues.contains_queue queue = false) :
    l.create_queue queue =
      (.ok (), ⟨l.record_log ++ [(l.cur_file, .Touch queue 0)],
        l.in_mem_queues ++ [(queue, ⟨0, [], l.cur_file⟩)], l.cur_file⟩) := by
  simp only [MultiRecordLog.create_queue, MultiRecordLog.write_record, MemQueues.create_queue,
    h, Bool.false_eq_true, if_false]

theorem MultiRecordLog.delete_queue_eval {l : MultiRecordLog} {queue : String} {np : Nat}
    (h : l.in_mem_queues.next_position queue = some np) :
    l.delete_queue queue =
      (.ok (), ⟨l.record_log ++ [(l.cur_file, .DeleteQueue queue np)],
        l.in_mem_queues.remove_queue queue, l.cur_file⟩) := by
  simp only [MultiRecordLog.delete_queue, h, MultiRecordLog.write_record,
    MemQueues.delete_queue, MemQueues.contains_of_next_position h, if_pos]

theorem MultiRecordLog.append_eval_unassigned {l : MultiRecordLog} {queue : String} {np : Nat}
    (payload : List Nat) (h : l.in_mem_queues.next_position queue = some np) :
    l.append_record queue none payload = l.append_go queue np payload := by
  simp only [MultiRecordLog.append_record, h]

theorem MultiRecordLog.truncate_eval {l : MultiRecordLog} {queue : String} {np pos : Nat}
    (h : l.in_mem_queues.next_position queue = some np) (hlt : pos < np) :
    l.truncate queue pos =
      (.ok (), ⟨(l.record_log ++ [(l.cur_file, .Truncate queue pos)]) ++
          touch_empty_frames l.cur_file (l.in_mem_queues.truncate queue pos),
        touch_empty_mem l.cur_file (l.in_mem_queues.truncate queue pos), l.cur_file⟩) := by
  simp only [MultiRecordLog.truncate, h, if_neg (by omega : ¬np ≤ pos),
    MultiRecordLog.write_record, MultiRecordLog.touch_empty_queues]

/-- One mutating step preserves the recovery invariant: the queue names
stay distinct and replaying the whole log still reconstructs exactly the
in-memory index — provided a `create_queue` step targets an absent
queue. -/
theorem MultiRecordLog.step_preserves (l : MultiRecordLog) (op : Op)
    (hnodup : (l.in_mem_queues.map Prod.fst).Nodup)
    (hreplay : MultiRecordLog.replay l.record_log = .ok l.in_mem_queues)
    (hgood : ∀ q, op = .create q → l.in_mem_queues.contains_queue q = false) :
    ((l.step op).in_mem_queues.map Prod.fst).Nodup ∧
      MultiRecordLog.replay (l.step op).record_log = .ok (l.step op).in_mem_queues := by
  have happly_append : ∀ (q : String) (np p : Nat) (pl : List Nat),
      l.in_mem_queues.next_position q = some np → p = np →
      (((l.append_go q p pl).2.in_mem_queues.map Prod.fst).Nodup ∧
        MultiRecordLog.replay (l.append_go q p pl).2.record_log =
          .ok (l.append_go q p pl).2.in_mem_queues) := by
    intro q np p pl hnp hp
    subst hp
    obtain ⟨mq, hfind, hnpq, happ⟩ :=
      MemQueues.append_record_of_next_position hnp l.cur_file pl
    have hev : l.append_go q p pl =
        (.ok (some p), ⟨l.record_log ++ [(l.cur_file, .AppendRecord q p pl)],
          l.in_mem_queues.update_queue q
            ⟨p + 1, mq.records ++ [(p, l.cur_file, pl)],
              if mq.records.isEmpty then l.cur_file else mq.first_file_number⟩,
          l.cur_file⟩) := by
      simp only [MultiRecordLog.append_go, MultiRecordLog.write_record, happ]
    rw [hev]
    constructor
    · rw [MemQueues.update_queue_keys]
      exact hnodup
    · rw [MultiRecordLog.replay_append_single _ _ hreplay]
      unfold MultiRecordLog.apply_frame
      dsimp only
      rw [happ]
  cases op with
  | create q =>
    have hc := hgood q rfl
    simp only [MultiRecordLog.step]
    rw [MultiRecordLog.create_queue_eval_absent hc]
    constructor
    · simp only [List.map_append, List.map_cons, List.map_nil, List.nodup_append]
      refine ⟨hnodup, List.nodup_singleton q, ?_⟩
      intro a ha hb
      simp at hb
      rw [hb] at ha
      exact MemQueues.not_mem_keys_of_not_contains hc ha
    · rw [MultiRecordLog.replay_append_single _ _ hreplay]
      unfold MultiRecordLog.apply_frame
      dsimp only
      rw [MemQueues.touch_eval_absent 0 l.cur_file (MemQueues.find_queue_of_not_contains hc)]
  | delete q =>
    rcases hnp : l.in_mem_queues.next_position q with _ | np
    · simp only [MultiRecordLog.step]
      simp only [MultiRecordLog.delete_queue, hnp]
      exact ⟨hnodup, hreplay⟩
    · simp only [MultiRecordLog.step]
      rw [MultiRecordLog.delete_queue_eval hnp]
      constructor
      · exact hnodup.sublist (List.Sublist.map Prod.fst (MemQueues.remove_queue_sublist q _))
      · rw [MultiRecordLog.replay_append_single _ _ hreplay]
        unfold MultiRecordLog.apply_frame
        dsimp only
        have hdel : l.in_mem_queues.delete_queue q =
            .ok (l.in_mem_queues.remove_queue q) := by
          simp only [MemQueues.delete_queue, MemQueues.contains_of_next_position hnp, if_pos]
        rw [hdel]
  | append q posOpt pl =>
    rcases hnp : l.in_mem_queues.next_position q with _ | np
    · simp only [MultiRecordLog.step]
      simp only [MultiRecordLog.append_record, hnp]
      exact ⟨hnodup, hreplay⟩
    · rcases posOpt with _ | p
      · simp only [MultiRecordLog.step]
        rw [MultiRecordLog.append_eval_unassigned pl hnp]
        exact happly_append q np np pl hnp rfl
      · simp only [MultiRecordLog.step]
        by_cases h1 : np < p
        · rw [MultiRecordLog.append_eval_future pl hnp h1]
          exact ⟨hnodup, hreplay⟩
        · by_cases h2 : p + 1 = np
          · rw [MultiRecordLog.append_eval_noop pl hnp h2]
            exact ⟨hnodup, hreplay⟩
          · by_cases h3 : p < np
            · rw [MultiRecordLog.append_eval_past pl hnp (by omega)]
              exact ⟨hnodup, hreplay⟩
            · rw [MultiRecordLog.append_eval_go pl hnp (by omega)]
              exact happly_append q np p pl hnp (by omega)
  | trunc q pos =>
    rcases hnp : l.in_mem_queues.next_position q with _ | np
    · simp only [MultiRecordLog.step]
      simp only [MultiRecordLog.truncate, hnp]
      exact ⟨hnodup, hreplay⟩
    · by_cases hle : np ≤ pos
      · simp only [MultiRecordLog.step]
        simp only [MultiRecordLog.truncate, hnp, if_pos hle]
        exact ⟨hnodup, hreplay⟩
      · simp only [MultiRecordLog.step]
        rw [MultiRecordLog.truncate_eval hnp (by omega)]
        have hkeys : ((l.in_mem_queues.truncate q pos).map Prod.fst).Nodup := by
          rw [MemQueues.truncate_keys]
          exact hnodup
        constructor
        · rw [touch_empty_mem_keys]
          exact hkeys
        · unfold MultiRecordLog.replay
          rw [MultiRecordLog.replayFrom_append]
          have hfirst : MultiRecordLog.replayFrom (.ok [])
              (l.record_log ++ [(l.cur_file, .Truncate q pos)]) =
              .ok (l.in_mem_queues.truncate q pos) := by
            rw [MultiRecordLog.replayFrom_append]
            unfold MultiRecordLog.replay at hreplay
            rw [hreplay, MultiRecordLog.replayFrom_single]
            rfl
          rw [hfirst]
          have := replay_touch_empty_frames l.cur_file
            (l.in_mem_queues.truncate q pos) [] (by simp) hkeys
          simpa using this
  | roll => exact ⟨hnodup, hreplay⟩

/-- Running any sequence of operations preserves the recovery invariant,
provided every `create_queue` in the sequence targets an absent queue. -/
theorem MultiRecordLog.run_preserves :
    ∀ (ops : List Op) (l : MultiRecordLog),
      (l.in_mem_queues.map Prod.fst).Nodup →
      MultiRecordLog.replay l.record_log = .ok l.in_mem_queues →
      l.goodRun ops = true →
      ((l.run ops).in_mem_queues.map Prod.fst).Nodup ∧
        MultiRecordLog.replay (l.run ops).record_log = .ok (l.run ops).in_mem_queues := by
  intro ops
  induction ops with
  | nil => intro l hnodup hreplay _; exact ⟨hnodup, hreplay⟩
  | cons op ops ih =>
    intro l hnodup hreplay hgood
    unfold MultiRecordLog.goodRun at hgood
    rw [Bool.and_eq_true] at hgood
    have hstep := MultiRecordLog.step_preserves l op hnodup hreplay (by
      intro q hq
      subst hq
      have := hgood.1
      simp only [Bool.not_eq_true'] at this
      exact this)
    exact ih (l.step op) hstep.1 hstep.2 hgood.2

/-- C1, counterexample: a redundant `create_queue` writes its
`Touch{position: 0}` frame even though it fails with `AlreadyExists` and
leaves memory unchanged; replaying the log then applies that `Touch` to a
non-empty queue whose `next_position` is 1 ≠ 0, which recovery treats as
`Corruption` — reopening does not reproduce the pre-close state. -/
theorem recovery_equivalence_counterexample :
    MultiRecordLog.replay
        (MultiRecordLog.empty.run [.create "q", .append "q" none [97], .create "q"]).record_log ≠
      .ok (MultiRecordLog.empty.run
        [.create "q", .append "q" none [97], .create "q"]).in_mem_queues := by
  decide

/-- C1 (amended): for any sequence of mutating operations
(`create_queue`, `delete_queue`, `append_record`, `truncate`, with the
rolling writer free to move to a new file between operations) in which
every `create_queue` targets a queue that does not exist at that point,
replaying the on-disk frame log of the resulting engine reconstructs
exactly the in-memory `MemQueues` state — recovery is the identity on the
state.  (Frames are modelled as decoded records tagged with their file
number; deletion of obsolete rolling files by `gc` is the external
rolling writer's concern and is not modelled as removing frames.) -/
theorem recovery_equivalence_of_successful_creates (ops : List Op)
    (hgood : MultiRecordLog.empty.goodRun ops = true) :
    MultiRecordLog.replay (MultiRecordLog.empty.run ops).record_log =
      .ok (MultiRecordLog.empty.run ops).in_mem_queues :=
  (MultiRecordLog.run_preserves ops MultiRecordLog.empty (by simp [MultiRecordLog.empty]) rfl
    hgood).2

/-- C1, witness. -/
theorem recovery_equivalence_of_successful_creates_witness :
    MultiRecordLog.empty.goodRun
        [.create "q", .append "q" none [104, 105], .roll, .create "r", .trunc "q" 0,
          .delete "r"] = true ∧
    MultiRecordLog.replay
        (MultiRecordLog.empty.run
          [.create "q", .append "q" none [104, 105], .roll, .create "r", .trunc "q" 0,
            .delete "r"]).record_log =
      .ok (MultiRecordLog.empty.run
        [.create "q", .append "q" none [104, 105], .roll, .create "r", .trunc "q" 0,
          .delete "r"]).in_mem_queues :=
  ⟨by decide,
   recovery_equivalence_of_successful_creates
     [.create "q", .append "q" none [104, 105], .roll, .create "r", .trunc "q" 0,
       .delete "r"] (by decide)⟩
